import Mathlib

/-!
Verification of the issue classifier (`issue_tracker_app/ml_utils.py`,
class `IssueClassifier`) against its natural-language specification.

The Python code is shallowly embedded: strings are Lean `String`s,
Python floats are modelled by `ℚ`, Python dicts (which preserve insertion
order) by ordered association lists, and the text functions are restricted
to the ASCII behaviour of `str.lower`, `\w` and `\s`.
-/

namespace IssueTracker

/-- ASCII lowercase mapping: models Python `str.lower()` on the ASCII range. -/
def lowerChar (c : Char) : Char :=
  if 65 ≤ c.toNat ∧ c.toNat ≤ 90 then Char.ofNat (c.toNat + 32) else c

/-- Word character: ASCII model of the regex class `\w` (alphanumeric or underscore). -/
def isWordChar (c : Char) : Bool := c.isAlphanum || c == '_'

/-- Whitespace: model of the regex class `\s` and of `str.split()`'s separators. -/
def isSpaceChar (c : Char) : Bool :=
  c == ' ' || c == '\t' || c == '\n' || c == '\r' || c == '\x0b' || c == '\x0c'

/-- One character of `re.sub(r'[^\w\s?]', ' ', text)`: keep word characters,
whitespace and question marks, replace everything else by a space. -/
def keepChar (c : Char) : Char :=
  if isWordChar c || isSpaceChar c || c == '?' then c else ' '

/-- Accumulator form of `str.split()`: split on whitespace runs, no empty tokens. -/
def splitWsAux : List Char → List Char → List (List Char)
  | [], acc => if acc.isEmpty then [] else [acc.reverse]
  | c :: cs, acc =>
    if isSpaceChar c then
      if acc.isEmpty then splitWsAux cs [] else acc.reverse :: splitWsAux cs []
    else splitWsAux cs (c :: acc)

/-- Python `text.split()` on a character list. -/
def splitWs (s : List Char) : List (List Char) := splitWsAux s []

/-- Python `' '.join(tokens)` on character lists. -/
def joinSpace : List (List Char) → List Char
  | [] => []
  | [t] => t
  | t :: ts => t ++ ' ' :: joinSpace ts

/-- `IssueClassifier.preprocess_text`: lowercase, replace every character that is
not a word character, whitespace or `?` by a space, then collapse whitespace
runs and trim (the `' '.join(text.split())` step). -/
def preprocess_text (s : String) : String :=
  ⟨joinSpace (splitWs ((s.data.map lowerChar).map keepChar))⟩

/-- `p` occurs as a contiguous substring of the second list. -/
def occursIn (p : List Char) : List Char → Bool
  | [] => p.isEmpty
  | c :: t => p.isPrefixOf (c :: t) || occursIn p t

/-- Python `sub in s` substring test on strings. -/
def containsStr (s sub : String) : Bool := occursIn sub.data s.data

/-- `IssueClassifier.CATEGORY_KEYWORDS`, as an ordered association list (Python
dicts preserve insertion order). -/
def CATEGORY_KEYWORDS : List (String × List String) :=
  [("bug",
     ["bug", "error", "crash", "broken", "not working", "fails", "failure",
      "issue", "problem", "wrong", "incorrect", "unexpected", "exception",
      "traceback", "stack trace", "null pointer", "500 error", "404",
      "syntax error", "runtime error", "does not work", "doesn\x27t work",
      "fix", "broke", "regression", "defect", "fault"]),
   ("feature",
     ["feature", "add", "new", "request", "could", "should", "would like",
      "enhancement", "improve", "suggestion", "propose", "ability to",
      "it would be nice", "please add", "can we have", "is it possible",
      "implement", "create", "build", "develop", "want", "need"]),
   ("question",
     ["question", "how", "what", "why", "when", "where", "who", "which",
      "can i", "is it", "does", "help", "guide", "documentation",
      "explain", "clarify", "understand", "?", "wondering", "confused",
      "not sure", "how to", "way to"]),
   ("enhancement",
     ["enhance", "better", "optimize", "performance", "speed up",
      "refactor", "redesign", "upgrade", "modernize", "efficiency",
      "scalability", "usability", "user experience", "ux", "ui",
      "polish", "cleanup", "streamline", "faster"]),
   ("documentation",
     ["documentation", "docs", "readme", "guide", "tutorial", "example",
      "wiki", "manual", "instruction", "explain", "comment", "docstring",
      "reference", "api docs", "help text", "tooltip"]),
   ("task",
     ["task", "todo", "to-do", "implement", "create", "setup", "configure",
      "deploy", "release", "update", "migrate", "install", "prepare",
      "organize", "plan", "schedule"])]

/-- `IssueClassifier.PRIORITY_KEYWORDS`, as an ordered association list. -/
def PRIORITY_KEYWORDS : List (String × List String) :=
  [("critical",
     ["critical", "urgent", "emergency", "immediately", "asap", "production down",
      "security", "vulnerability", "exploit", "data loss", "cannot access",
      "severe", "catastrophic", "show stopper", "blocker", "down"]),
   ("high",
     ["high priority", "important", "blocking", "severe", "major",
      "affects many", "customer facing", "deadline", "soon", "priority",
      "must fix", "needed", "required"]),
   ("medium",
     ["medium", "moderate", "normal", "should fix", "inconvenient",
      "would be good", "affects some", "non-critical"]),
   ("low",
     ["low priority", "minor", "trivial", "nice to have", "cosmetic",
      "eventually", "someday", "when possible", "polish", "small"])]

/-- Keyword list of one category (`cls.CATEGORY_KEYWORDS[category]`). -/
def keywordsOf (c : String) : List String :=
  ((CATEGORY_KEYWORDS.find? (fun p => p.1 == c)).map Prod.snd).getD []

/-- Keyword list of one priority level (`cls.PRIORITY_KEYWORDS[priority]`). -/
def priorityKeywordsOf (p : String) : List String :=
  ((PRIORITY_KEYWORDS.find? (fun q => q.1 == p)).map Prod.snd).getD []

/-- Score of one category's keyword list: the inner loop of `classify_category`.
A keyword occurring in the combined text adds 2 when it also occurs in the
preprocessed title, else 1. -/
def catScore (titleT combinedT : String) (kws : List String) : Nat :=
  kws.foldl
    (fun acc kw =>
      if containsStr combinedT kw then
        if containsStr titleT kw then acc + 2 else acc + 1
      else acc) 0

/-- The `scores` dict of `classify_category`, in table order. -/
def scoresList (titleT combinedT : String) : List (String × Nat) :=
  CATEGORY_KEYWORDS.map (fun p => (p.1, catScore titleT combinedT p.2))

/-- Python `max(scores, key=scores.get)` over an association list: the first
entry attaining the maximal value (`max` only replaces on strictly greater). -/
def pyMaxBySnd : List (String × Nat) → String × Nat
  | [] => ("", 0)
  | x :: xs => xs.foldl (fun b p => if p.2 > b.2 then p else b) x

/-- Python `round(q, 2)` modelled over ℚ (round to the nearest hundredth). -/
def round2 (q : ℚ) : ℚ := (round (q * 100) : ℚ) / 100

/-- `IssueClassifier.classify_category`, with ℚ standing for Python floats. -/
def classify_category (title description : String) : String × ℚ :=
  let title_text := preprocess_text title
  let desc_text := preprocess_text description
  let combined_text := title_text ++ " " ++ desc_text
  let scores := scoresList title_text combined_text
  if (scores.map Prod.snd).foldl max 0 = 0 then ("task", 3/10)
  else
    let best := pyMaxBySnd scores
    let best_score := best.2
    let total_score := (scores.map Prod.snd).sum
    let conf0 : ℚ := if 0 < total_score then (best_score : ℚ) / (total_score : ℚ) else 0
    let conf1 : ℚ := if 3 ≤ best_score then min (conf0 * (12/10)) 1 else conf0
    let conf2 : ℚ :=
      if (keywordsOf best.1).any (fun kw => containsStr title_text kw) then
        min (conf1 * (11/10)) 1
      else conf1
    (best.1, round2 conf2)

/-- `IssueClassifier.suggest_priority`: first level in the fixed order whose
keyword list has a hit in the preprocessed combined text, default `medium`. -/
def suggest_priority (title description : String) : String :=
  let combined_text := preprocess_text (title ++ " " ++ description)
  match (["critical", "high", "medium", "low"].find?
      (fun pr => (priorityKeywordsOf pr).any (fun kw => containsStr combined_text kw))) with
  | some pr => pr
  | none => "medium"

/-- The stop-word set of `extract_keywords`. -/
def stop_words : List String :=
  ["the", "a", "an", "and", "or", "but", "in", "on", "at", "to", "for",
   "of", "with", "is", "are", "was", "were", "be", "been", "being",
   "have", "has", "had", "do", "does", "did", "will", "would", "could",
   "should", "may", "might", "must", "can", "this", "that", "these",
   "those", "i", "you", "he", "she", "it", "we", "they", "what", "which",
   "who", "when", "where", "why", "how", "all", "each", "every", "both",
   "few", "more", "most", "other", "some", "such", "no", "nor", "not",
   "only", "own", "same", "so", "than", "too", "very", "just", "now"]

/-- One step of the `word_freq` dict update: increment in place, or append a
new key at the end (Python dicts keep insertion order). -/
def bumpFreq (w : String) : List (String × Nat) → List (String × Nat)
  | [] => [(w, 1)]
  | (v, c) :: rest => if v == w then (v, c + 1) :: rest else (v, c) :: bumpFreq w rest

/-- The `word_freq` loop of `extract_keywords`: count tokens longer than 3
characters that are not stop words. -/
def buildFreq (ws : List String) : List (String × Nat) :=
  ws.foldl
    (fun acc w => if 3 < w.length && !(stop_words.contains w) then bumpFreq w acc else acc) []

/-- Stable insertion of `x` into a list sorted descending by `f`: `x` goes
before the first element whose key is not larger. -/
def insertDescBy (f : α → Nat) (x : α) : List α → List α
  | [] => [x]
  | y :: ys => if f y ≤ f x then x :: y :: ys else y :: insertDescBy f x ys

/-- Stable descending sort by `f`: extensional model of Python
`sorted(l, key=f, reverse=True)` (a stable sort). -/
def sortDescBy (f : α → Nat) : List α → List α
  | [] => []
  | x :: xs => insertDescBy f x (sortDescBy f xs)

/-- `IssueClassifier.extract_keywords`. -/
def extract_keywords (text : String) (top_n : Nat := 5) : List String :=
  let t := preprocess_text text
  let words := (splitWs t.data).map (fun l => (⟨l⟩ : String))
  let word_freq := buildFreq words
  let sorted_words := sortDescBy Prod.snd word_freq
  (sorted_words.take top_n).map Prod.fst

/-- Positive word list of `analyze_sentiment`. -/
def positive_words : List String :=
  ["good", "great", "excellent", "awesome", "love", "perfect",
   "best", "wonderful", "fantastic", "amazing"]

/-- Negative word list of `analyze_sentiment`. -/
def negative_words : List String :=
  ["bad", "terrible", "awful", "hate", "worst", "horrible",
   "disappointing", "frustrating", "annoying", "useless"]

/-- `IssueClassifier.analyze_sentiment`. -/
def analyze_sentiment (text : String) : String :=
  let t := preprocess_text text
  let positive_count := positive_words.countP (fun w => containsStr t w)
  let negative_count := negative_words.countP (fun w => containsStr t w)
  if positive_count > negative_count then "positive"
  else if negative_count > positive_count then "negative"
  else "neutral"

/-- Contribution of a single keyword to a category score, as the specification
words it: 1 for a hit in the combined text, a further 1 for a title hit. -/
def keywordScore (titleT combinedT : String) (kw : String) : Nat :=
  if containsStr combinedT kw then (if containsStr titleT kw then 2 else 1) else 0

/-- Specification-side category score: the sum of the per-keyword contributions. -/
def specScore (titleT combinedT : String) (kws : List String) : Nat :=
  (kws.map (keywordScore titleT combinedT)).sum

/-- Integer pipeline computing 100 times the confidence that
`classify_category` returns (exact arithmetic on numerator/denominator pairs,
used to evaluate the rational model on concrete inputs). -/
def confH (title description : String) : Nat :=
  let title_text := preprocess_text title
  let desc_text := preprocess_text description
  let combined_text := title_text ++ " " ++ desc_text
  let scores := scoresList title_text combined_text
  if (scores.map Prod.snd).foldl max 0 = 0 then 30
  else
    let best := pyMaxBySnd scores
    let b := best.2
    let t := (scores.map Prod.snd).sum
    let p1 := if 3 ≤ b then (min (12 * b) (10 * t), 10 * t) else (b, t)
    let p2 := if (keywordsOf best.1).any (fun kw => containsStr title_text kw) then
        (min (11 * p1.1) (10 * p1.2), 10 * p1.2) else p1
    (200 * p2.1 + p2.2) / (2 * p2.2)

/-- Specification-side score values of all categories, in table order. -/
def specVals (tT cT : String) : List Nat :=
  CATEGORY_KEYWORDS.map (fun p => specScore tT cT p.2)

/-- Specification-side winning (maximal) score. -/
def specMax (tT cT : String) : Nat := (specVals tT cT).foldl max 0

/-- Specification-side sum of all category scores. -/
def specTotal (tT cT : String) : Nat := (specVals tT cT).sum

/-- Specification-side winning category: the first category of the declared
table order whose score attains the maximum. -/
def specWinner (tT cT : String) : String :=
  ((CATEGORY_KEYWORDS.map Prod.fst).find?
    (fun c => specScore tT cT (keywordsOf c) == specMax tT cT)).getD "task"

/-- The confidence formula as the specification words it: winning score over
the sum of all scores, then times 1.2 capped at 1.0 when the winning score is
at least 3, then times 1.1 capped at 1.0 when some keyword of the winning
category occurs in the preprocessed title, finally rounded to 2 decimals. -/
def specConfidence (tT cT : String) : ℚ :=
  let base : ℚ := (specMax tT cT : ℚ) / (specTotal tT cT : ℚ)
  let b12 : ℚ := if 3 ≤ specMax tT cT then min (base * (12/10)) 1 else base
  let b11 : ℚ :=
    if ∃ kw ∈ keywordsOf (specWinner tT cT), containsStr tT kw = true then
      min (b12 * (11/10)) 1
    else b12
  round2 b11

/-- First occurrences of a token stream, given the set of tokens already seen. -/
def firstSeenAux : List String → List String → List String
  | [], _ => []
  | w :: ws, seen =>
    if seen.contains w then firstSeenAux ws seen else w :: firstSeenAux ws (w :: seen)

/-- The distinct tokens of a stream, in the order they are first encountered. -/
def firstSeen (ws : List String) : List String := firstSeenAux ws []

/-- Value of a key in an association list, 0 when absent. -/
def valueOf (a : List (String × Nat)) (w : String) : Nat :=
  ((a.find? (fun p => p.1 == w)).map Prod.snd).getD 0

/-- The fixed scan order of `suggest_priority`. -/
def priorityOrder : List String := ["critical", "high", "medium", "low"]

/-- Specification-side notion: some keyword of a priority level occurs in the
combined text. -/
def levelHit (combined pr : String) : Prop :=
  ∃ kw ∈ priorityKeywordsOf pr, containsStr combined kw = true

theorem catScore_eq (titleT combinedT : String) (kws : List String) :
    catScore titleT combinedT kws = specScore titleT combinedT kws := by
  suffices h : ∀ (l : List String) (acc : Nat),
      l.foldl
        (fun acc kw =>
          if containsStr combinedT kw then
            if containsStr titleT kw then acc + 2 else acc + 1
          else acc) acc = acc + specScore titleT combinedT l by
    simpa using h kws 0
  intro l
  induction l with
  | nil => intro acc; simp [specScore]
  | cons w ws ih =>
    intro acc
    simp only [List.foldl_cons, ih, specScore, List.map_cons, List.sum_cons, keywordScore]
    split_ifs <;> omega

theorem le_foldl_max (l : List Nat) (a : Nat) : a ≤ l.foldl max a := by
  induction l generalizing a with
  | nil => simp
  | cons x xs ih => exact le_trans (le_max_left a x) (ih (max a x))

theorem mem_le_foldl_max {x : Nat} {l : List Nat} (h : x ∈ l) (a : Nat) :
    x ≤ l.foldl max a := by
  induction l generalizing a with
  | nil => cases h
  | cons y ys ih =>
    rcases List.mem_cons.mp h with rfl | h
    · exact le_trans (le_max_right a x) (le_foldl_max ys (max a x))
    · exact ih h (max a y)

theorem foldl_max_le {l : List Nat} {a c : Nat} (h0 : a ≤ c) (h : ∀ x ∈ l, x ≤ c) :
    l.foldl max a ≤ c := by
  induction l generalizing a with
  | nil => simpa using h0
  | cons x xs ih =>
    exact ih (max_le h0 (h x (List.mem_cons_self x xs))) (fun y hy => h y (List.mem_cons_of_mem x hy))

theorem foldl_max_le_sum (l : List Nat) : l.foldl max 0 ≤ l.sum :=
  foldl_max_le (Nat.zero_le _) (fun x hx => List.single_le_sum (fun y _ => Nat.zero_le y) x hx)

theorem pyMax_foldl (xs : List (String × Nat)) (b : String × Nat) :
    (xs.foldl (fun b p => if p.2 > b.2 then p else b) b = b ∧ ∀ p ∈ xs, p.2 ≤ b.2) ∨
    (∃ i : Fin xs.length,
      xs.foldl (fun b p => if p.2 > b.2 then p else b) b = xs.get i ∧
      b.2 < (xs.get i).2 ∧ (∀ p ∈ xs, p.2 ≤ (xs.get i).2) ∧
      ∀ j : Fin xs.length, j.val < i.val → (xs.get j).2 < (xs.get i).2) := by
  induction xs generalizing b with
  | nil => exact Or.inl ⟨rfl, by simp⟩
  | cons x xs ih =>
    simp only [List.foldl_cons]
    by_cases hx : x.2 > b.2
    · rw [if_pos hx]
      rcases ih x with ⟨heq, hub⟩ | ⟨i, heq, hlt, hub, hfirst⟩
      · refine Or.inr ⟨⟨0, by simp⟩, heq, hx, ?_, ?_⟩
        · intro p hp
          rcases List.mem_cons.mp hp with rfl | hp
          · exact le_refl _
          · exact hub p hp
        · rintro ⟨jv, hjlen⟩ hj
          have hj2 : jv < 0 := hj
          omega
      · refine Or.inr ⟨⟨i.val + 1, by have h := i.isLt; simp only [List.length_cons]; omega⟩,
          heq, lt_trans hx hlt, ?_, ?_⟩
        · intro p hp
          rcases List.mem_cons.mp hp with rfl | hp
          · exact le_of_lt hlt
          · exact hub p hp
        · rintro ⟨jv, hjlen⟩ hj
          have hj2 : jv < i.val + 1 := hj
          have hjlen2 : jv < xs.length + 1 := by simpa using hjlen
          match jv, hjlen2, hj2 with
          | 0, _, _ => exact hlt
          | k + 1, hk, hjk =>
            exact hfirst ⟨k, Nat.lt_of_succ_lt_succ hk⟩ (Nat.lt_of_succ_lt_succ hjk)
    · rw [if_neg hx]
      push_neg at hx
      rcases ih b with ⟨heq, hub⟩ | ⟨i, heq, hlt, hub, hfirst⟩
      · refine Or.inl ⟨heq, ?_⟩
        intro p hp
        rcases List.mem_cons.mp hp with rfl | hp
        · exact hx
        · exact hub p hp
      · refine Or.inr ⟨⟨i.val + 1, by have h := i.isLt; simp only [List.length_cons]; omega⟩,
          heq, hlt, ?_, ?_⟩
        · intro p hp
          rcases List.mem_cons.mp hp with rfl | hp
          · exact le_of_lt (lt_of_le_of_lt hx hlt)
          · exact hub p hp
        · rintro ⟨jv, hjlen⟩ hj
          have hj2 : jv < i.val + 1 := hj
          have hjlen2 : jv < xs.length + 1 := by simpa using hjlen
          match jv, hjlen2, hj2 with
          | 0, _, _ => exact lt_of_le_of_lt hx hlt
          | k + 1, hk, hjk =>
            exact hfirst ⟨k, Nat.lt_of_succ_lt_succ hk⟩ (Nat.lt_of_succ_lt_succ hjk)

theorem pyMax_first (l : List (String × Nat)) (hne : l ≠ []) :
    ∃ i : Fin l.length, pyMaxBySnd l = l.get i ∧ (∀ p ∈ l, p.2 ≤ (l.get i).2) ∧
      ∀ j : Fin l.length, j.val < i.val → (l.get j).2 < (l.get i).2 := by
  match l, hne with
  | x :: xs, _ =>
    rcases pyMax_foldl xs x with ⟨heq, hub⟩ | ⟨i, heq, hlt, hub, hfirst⟩
    · refine ⟨⟨0, by simp⟩, heq, ?_, ?_⟩
      · intro p hp
        rcases List.mem_cons.mp hp with rfl | hp
        · exact le_refl _
        · exact hub p hp
      · rintro ⟨jv, hjlen⟩ hj
        have hj2 : jv < 0 := hj
        omega
    · refine ⟨⟨i.val + 1, by have h := i.isLt; simp only [List.length_cons]; omega⟩,
        heq, ?_, ?_⟩
      · intro p hp
        rcases List.mem_cons.mp hp with rfl | hp
        · exact le_of_lt hlt
        · exact hub p hp
      · rintro ⟨jv, hjlen⟩ hj
        have hj2 : jv < i.val + 1 := hj
        have hjlen2 : jv < xs.length + 1 := by simpa using hjlen
        match jv, hjlen2, hj2 with
        | 0, _, _ => exact hlt
        | k + 1, hk, hjk =>
          exact hfirst ⟨k, Nat.lt_of_succ_lt_succ hk⟩ (Nat.lt_of_succ_lt_succ hjk)

theorem find?_eq_of_first {α : Type} (P : α → Bool) :
    ∀ (l : List α) (i : Fin l.length), P (l.get i) = true →
      (∀ j : Fin l.length, j.val < i.val → P (l.get j) = false) →
      l.find? P = some (l.get i)
  | x :: xs, ⟨0, h0⟩, hP, _ => List.find?_cons_of_pos xs hP
  | x :: xs, ⟨n + 1, hn⟩, hP, hlt => by
      have hx : P x = false := hlt ⟨0, Nat.succ_pos _⟩ (Nat.succ_pos n)
      rw [List.find?_cons_of_neg _ (by simp [hx])]
      exact find?_eq_of_first P xs ⟨n, Nat.lt_of_succ_lt_succ hn⟩ hP
        (fun j hj => hlt ⟨j.val + 1, Nat.succ_lt_succ j.isLt⟩ (Nat.succ_lt_succ hj))

theorem specScore_pos {titleT combinedT kw : String} {kws : List String}
    (hkw : kw ∈ kws) (hhit : containsStr combinedT kw = true) :
    1 ≤ specScore titleT combinedT kws := by
  have hmem : keywordScore titleT combinedT kw ∈ kws.map (keywordScore titleT combinedT) :=
    List.mem_map_of_mem _ hkw
  have h1 : 1 ≤ keywordScore titleT combinedT kw := by
    simp only [keywordScore, hhit, if_true]
    split_ifs <;> omega
  exact le_trans h1 (List.single_le_sum (fun y _ => Nat.zero_le y) _ hmem)

/-- C3: when no keyword of any category occurs in the combined text,
`classify_category` returns the fixed default `("task", 0.30)`; in particular
`classify_category "" "" = ("task", 0.30)`. -/
theorem classify_category_default (title description : String)
    (h : ∀ p ∈ CATEGORY_KEYWORDS, ∀ kw ∈ p.2,
        containsStr (preprocess_text title ++ " " ++ preprocess_text description) kw = false) :
    classify_category title description = ("task", 3/10) ∧
      classify_category "" "" = ("task", 3/10) := by
  refine ⟨?_, rfl⟩
  have hz : ∀ x ∈ ((scoresList (preprocess_text title)
      (preprocess_text title ++ " " ++ preprocess_text description)).map Prod.snd), x = 0 := by
    intro x hx
    rcases List.mem_map.mp hx with ⟨q, hq, rfl⟩
    rcases List.mem_map.mp hq with ⟨p, hp, rfl⟩
    simp only [catScore_eq, specScore]
    apply List.sum_eq_zero
    intro y hy
    rcases List.mem_map.mp hy with ⟨kw, hkw, rfl⟩
    simp [keywordScore, h p hp kw hkw]
  have hmax : ((scoresList (preprocess_text title)
      (preprocess_text title ++ " " ++ preprocess_text description)).map Prod.snd).foldl max 0
        = 0 :=
    Nat.le_zero.mp (foldl_max_le (le_refl 0) (fun x hx => le_of_eq (hz x hx)))
  simp only [classify_category]
  rw [if_pos hmax]

/-- C3 witness: the default branch at the concrete input `("", "")`. -/
theorem classify_category_default_witness :
    classify_category "" "" = ("task", 3/10) :=
  (classify_category_default "" "" (by decide)).1

/-- C8: `analyze_sentiment` returns `positive` exactly when the positive count
exceeds the negative one over the preprocessed text, `negative` exactly in the
opposite case, and `neutral` otherwise (ties included); in particular
`analyze_sentiment "good bad" = "neutral"`. -/
theorem analyze_sentiment_trichotomy (text : String) :
    (analyze_sentiment text = "positive" ↔
      negative_words.countP (fun w => containsStr (preprocess_text text) w) <
        positive_words.countP (fun w => containsStr (preprocess_text text) w)) ∧
    (analyze_sentiment text = "negative" ↔
      positive_words.countP (fun w => containsStr (preprocess_text text) w) <
        negative_words.countP (fun w => containsStr (preprocess_text text) w)) ∧
    (analyze_sentiment text = "neutral" ↔
      positive_words.countP (fun w => containsStr (preprocess_text text) w) =
        negative_words.countP (fun w => containsStr (preprocess_text text) w)) ∧
    analyze_sentiment "good bad" = "neutral" := by
  refine ⟨?_, ?_, ?_, by decide⟩ <;>
    · simp only [analyze_sentiment]
      split_ifs with h1 h2 <;> simp_all <;> omega

/-- C10: the sentiment counts tally distinct listed words present as substrings
of the preprocessed text (each listed word contributes at most once, so the
result depends only on the set of listed words present, not multiplicities);
a text with `good` twice and `bad`, `terrible` once each is `negative`. -/
theorem analyze_sentiment_distinct_words (t1 t2 : String)
    (h : ∀ w ∈ positive_words ++ negative_words,
        containsStr (preprocess_text t1) w = containsStr (preprocess_text t2) w) :
    analyze_sentiment t1 = analyze_sentiment t2 ∧
    (∀ text : String, analyze_sentiment text =
      (if (negative_words.filter (fun w => containsStr (preprocess_text text) w)).length <
          (positive_words.filter (fun w => containsStr (preprocess_text text) w)).length
       then "positive"
       else if (positive_words.filter (fun w => containsStr (preprocess_text text) w)).length <
          (negative_words.filter (fun w => containsStr (preprocess_text text) w)).length
       then "negative" else "neutral")) ∧
    analyze_sentiment "good good bad terrible" = "negative" := by
  refine ⟨?_, ?_, by decide⟩
  · have hp : positive_words.countP (fun w => containsStr (preprocess_text t1) w) =
        positive_words.countP (fun w => containsStr (preprocess_text t2) w) :=
      List.countP_congr (fun w hw => by rw [h w (List.mem_append_left _ hw)])
    have hn : negative_words.countP (fun w => containsStr (preprocess_text t1) w) =
        negative_words.countP (fun w => containsStr (preprocess_text t2) w) :=
      List.countP_congr (fun w hw => by rw [h w (List.mem_append_right _ hw)])
    simp only [analyze_sentiment, hp, hn]
  · intro text
    simp only [analyze_sentiment, List.countP_eq_length_filter]

/-- C10 witness: duplicate occurrences of `good` do not change the result. -/
theorem analyze_sentiment_distinct_words_witness :
    analyze_sentiment "good good bad terrible" = analyze_sentiment "good bad terrible" ∧
      analyze_sentiment "good good bad terrible" = "negative" :=
  ⟨(analyze_sentiment_distinct_words "good good bad terrible" "good bad terrible" (by decide)).1,
   (analyze_sentiment_distinct_words "good good bad terrible" "good bad terrible" (by decide)).2.2⟩

theorem levelHit_false {c pr : String}
    (h : (priorityKeywordsOf pr).any (fun kw => containsStr c kw) = false) :
    ¬ levelHit c pr := by
  rintro ⟨kw, hkw, hcon⟩
  have htrue : (priorityKeywordsOf pr).any (fun kw => containsStr c kw) = true :=
    List.any_eq_true.mpr ⟨kw, hkw, hcon⟩
  rw [h] at htrue
  exact Bool.false_ne_true htrue

/-- C4: `suggest_priority` scans the levels in the fixed order
`critical, high, medium, low` and returns the first level with a keyword hit in
the preprocessed combined text, `medium` when none matches; in particular
`suggest_priority "this is urgent and also minor" "" = "critical"`. -/
theorem suggest_priority_first_match (title description : String) :
    ((∃ i : Fin priorityOrder.length,
        suggest_priority title description = priorityOrder.get i ∧
        levelHit (preprocess_text (title ++ " " ++ description)) (priorityOrder.get i) ∧
        ∀ j : Fin priorityOrder.length, j.val < i.val →
          ¬ levelHit (preprocess_text (title ++ " " ++ description)) (priorityOrder.get j)) ∨
      (suggest_priority title description = "medium" ∧
        ∀ pr ∈ priorityOrder,
          ¬ levelHit (preprocess_text (title ++ " " ++ description)) pr)) ∧
    suggest_priority "this is urgent and also minor" "" = "critical" := by
  refine ⟨?_, by decide⟩
  set c := preprocess_text (title ++ " " ++ description) with hc
  cases h1 : (priorityKeywordsOf "critical").any (fun kw => containsStr c kw) with
  | true =>
    left
    refine ⟨⟨0, by decide⟩, ?_, List.any_eq_true.mp h1, ?_⟩
    · simp only [suggest_priority, priorityOrder, List.find?, ← hc, h1]
      rfl
    · rintro ⟨jv, hjlen⟩ hj
      have hj2 : jv < 0 := hj
      omega
  | false =>
  cases h2 : (priorityKeywordsOf "high").any (fun kw => containsStr c kw) with
  | true =>
    left
    refine ⟨⟨1, by decide⟩, ?_, List.any_eq_true.mp h2, ?_⟩
    · simp only [suggest_priority, priorityOrder, List.find?, ← hc, h1, h2]
      rfl
    · rintro ⟨jv, hjlen⟩ hj
      have hj2 : jv < 1 := hj
      match jv, hj2 with
      | 0, _ => exact levelHit_false h1
  | false =>
  cases h3 : (priorityKeywordsOf "medium").any (fun kw => containsStr c kw) with
  | true =>
    left
    refine ⟨⟨2, by decide⟩, ?_, List.any_eq_true.mp h3, ?_⟩
    · simp only [suggest_priority, priorityOrder, List.find?, ← hc, h1, h2, h3]
      rfl
    · rintro ⟨jv, hjlen⟩ hj
      have hj2 : jv < 2 := hj
      match jv, hj2 with
      | 0, _ => exact levelHit_false h1
      | 1, _ => exact levelHit_false h2
  | false =>
  cases h4 : (priorityKeywordsOf "low").any (fun kw => containsStr c kw) with
  | true =>
    left
    refine ⟨⟨3, by decide⟩, ?_, List.any_eq_true.mp h4, ?_⟩
    · simp only [suggest_priority, priorityOrder, List.find?, ← hc, h1, h2, h3, h4]
      rfl
    · rintro ⟨jv, hjlen⟩ hj
      have hj2 : jv < 3 := hj
      match jv, hj2 with
      | 0, _ => exact levelHit_false h1
      | 1, _ => exact levelHit_false h2
      | 2, _ => exact levelHit_false h3
  | false =>
    right
    refine ⟨?_, ?_⟩
    · simp only [suggest_priority, priorityOrder, List.find?, ← hc, h1, h2, h3, h4]
    · intro pr hpr
      rcases List.mem_cons.mp hpr with rfl | hpr
      · exact levelHit_false h1
      rcases List.mem_cons.mp hpr with rfl | hpr
      · exact levelHit_false h2
      rcases List.mem_cons.mp hpr with rfl | hpr
      · exact levelHit_false h3
      rcases List.mem_cons.mp hpr with rfl | hpr
      · exact levelHit_false h4
      · cases hpr

theorem scoresList_length (tT cT : String) :
    (scoresList tT cT).length = CATEGORY_KEYWORDS.length := by
  simp [scoresList]

theorem scoresList_get (tT cT : String) (k : Nat) (hk : k < (scoresList tT cT).length)
    (hk2 : k < CATEGORY_KEYWORDS.length) :
    (scoresList tT cT).get ⟨k, hk⟩ =
      ((CATEGORY_KEYWORDS.get ⟨k, hk2⟩).1, catScore tT cT (CATEGORY_KEYWORDS.get ⟨k, hk2⟩).2) := by
  simp only [scoresList]
  rw [List.get_map]

/-- C1: with at least one keyword hit in the combined text, `classify_category`
returns the category with the maximal score (1 per combined hit plus 1 extra
per title hit), ties broken in favour of the earlier entry of the declared
table order `bug, feature, question, enhancement, documentation, task`. -/
theorem classify_category_first_max (title description : String)
    (h : ∃ p ∈ CATEGORY_KEYWORDS, ∃ kw ∈ p.2,
        containsStr (preprocess_text title ++ " " ++ preprocess_text description) kw = true) :
    CATEGORY_KEYWORDS.map Prod.fst =
      ["bug", "feature", "question", "enhancement", "documentation", "task"] ∧
    ∃ i : Fin CATEGORY_KEYWORDS.length,
      (classify_category title description).1 = (CATEGORY_KEYWORDS.get i).1 ∧
      (∀ p ∈ CATEGORY_KEYWORDS,
        specScore (preprocess_text title)
            (preprocess_text title ++ " " ++ preprocess_text description) p.2 ≤
          specScore (preprocess_text title)
            (preprocess_text title ++ " " ++ preprocess_text description)
            (CATEGORY_KEYWORDS.get i).2) ∧
      ∀ j : Fin CATEGORY_KEYWORDS.length, j.val < i.val →
        specScore (preprocess_text title)
            (preprocess_text title ++ " " ++ preprocess_text description)
            (CATEGORY_KEYWORDS.get j).2 <
          specScore (preprocess_text title)
            (preprocess_text title ++ " " ++ preprocess_text description)
            (CATEGORY_KEYWORDS.get i).2 := by
  refine ⟨rfl, ?_⟩
  obtain ⟨p, hp, kw, hkw, hhit⟩ := h
  have hscore1 : 1 ≤ specScore (preprocess_text title)
      (preprocess_text title ++ " " ++ preprocess_text description) p.2 :=
    specScore_pos hkw hhit
  have hmem2 : catScore (preprocess_text title)
      (preprocess_text title ++ " " ++ preprocess_text description) p.2 ∈
        ((scoresList (preprocess_text title)
          (preprocess_text title ++ " " ++ preprocess_text description)).map Prod.snd) :=
    List.mem_map_of_mem _ (List.mem_map_of_mem _ hp)
  have hmax1 : 1 ≤ (((scoresList (preprocess_text title)
      (preprocess_text title ++ " " ++ preprocess_text description)).map Prod.snd).foldl
        max 0) := by
    refine le_trans ?_ (mem_le_foldl_max hmem2 0)
    rw [catScore_eq]
    exact hscore1
  have hmax : ¬ ((((scoresList (preprocess_text title)
      (preprocess_text title ++ " " ++ preprocess_text description)).map Prod.snd).foldl
        max 0) = 0) := by omega
  have hne : scoresList (preprocess_text title)
      (preprocess_text title ++ " " ++ preprocess_text description) ≠ [] := by
    simp [scoresList, CATEGORY_KEYWORDS]
  obtain ⟨i, heq, hub, hfirst⟩ := pyMax_first _ hne
  have hlen : (scoresList (preprocess_text title)
      (preprocess_text title ++ " " ++ preprocess_text description)).length =
        CATEGORY_KEYWORDS.length := scoresList_length _ _
  have hi2 : i.val < CATEGORY_KEYWORDS.length := by
    have := i.isLt
    omega
  have hgeti := scoresList_get (preprocess_text title)
    (preprocess_text title ++ " " ++ preprocess_text description) i.val i.isLt hi2
  refine ⟨⟨i.val, hi2⟩, ?_, ?_, ?_⟩
  · have hclass : (classify_category title description).1 =
        (pyMaxBySnd (scoresList (preprocess_text title)
          (preprocess_text title ++ " " ++ preprocess_text description))).1 := by
      simp only [classify_category]
      rw [if_neg hmax]
    rw [hclass, heq]
    rw [show ((scoresList (preprocess_text title)
      (preprocess_text title ++ " " ++ preprocess_text description)).get i) =
        (scoresList (preprocess_text title)
          (preprocess_text title ++ " " ++ preprocess_text description)).get
            ⟨i.val, i.isLt⟩ from rfl, hgeti]
  · intro q hq
    have hq2 := hub (q.1, catScore (preprocess_text title)
      (preprocess_text title ++ " " ++ preprocess_text description) q.2)
      (List.mem_map_of_mem _ hq)
    rw [show ((scoresList (preprocess_text title)
      (preprocess_text title ++ " " ++ preprocess_text description)).get i) =
        (scoresList (preprocess_text title)
          (preprocess_text title ++ " " ++ preprocess_text description)).get
            ⟨i.val, i.isLt⟩ from rfl, hgeti] at hq2
    simp only [catScore_eq] at hq2
    exact hq2
  · intro j hj
    have hjlt : j.val < (scoresList (preprocess_text title)
        (preprocess_text title ++ " " ++ preprocess_text description)).length := by
      have := j.isLt
      omega
    have hstep := hfirst ⟨j.val, hjlt⟩ hj
    have hgetj := scoresList_get (preprocess_text title)
      (preprocess_text title ++ " " ++ preprocess_text description) j.val hjlt j.isLt
    rw [hgetj] at hstep
    rw [show ((scoresList (preprocess_text title)
      (preprocess_text title ++ " " ++ preprocess_text description)).get i) =
        (scoresList (preprocess_text title)
          (preprocess_text title ++ " " ++ preprocess_text description)).get
            ⟨i.val, i.isLt⟩ from rfl, hgeti] at hstep
    simp only [catScore_eq] at hstep
    exact hstep

/-- C1 witness: the hypothesis and the first-max property at `("bug", "")`. -/
theorem classify_category_first_max_witness :
    (∃ p ∈ CATEGORY_KEYWORDS, ∃ kw ∈ p.2,
        containsStr (preprocess_text "bug" ++ " " ++ preprocess_text "") kw = true) ∧
    (CATEGORY_KEYWORDS.map Prod.fst =
        ["bug", "feature", "question", "enhancement", "documentation", "task"] ∧
      ∃ i : Fin CATEGORY_KEYWORDS.length,
        (classify_category "bug" "").1 = (CATEGORY_KEYWORDS.get i).1 ∧
        (∀ p ∈ CATEGORY_KEYWORDS,
          specScore (preprocess_text "bug")
              (preprocess_text "bug" ++ " " ++ preprocess_text "") p.2 ≤
            specScore (preprocess_text "bug")
              (preprocess_text "bug" ++ " " ++ preprocess_text "")
              (CATEGORY_KEYWORDS.get i).2) ∧
        ∀ j : Fin CATEGORY_KEYWORDS.length, j.val < i.val →
          specScore (preprocess_text "bug")
              (preprocess_text "bug" ++ " " ++ preprocess_text "")
              (CATEGORY_KEYWORDS.get j).2 <
            specScore (preprocess_text "bug")
              (preprocess_text "bug" ++ " " ++ preprocess_text "")
              (CATEGORY_KEYWORDS.get i).2) :=
  ⟨⟨("bug", keywordsOf "bug"), by decide, "bug", by decide, by decide⟩,
    classify_category_first_max "bug" ""
      ⟨("bug", keywordsOf "bug"), by decide, "bug", by decide, by decide⟩⟩

theorem cap_frac_eq (n d k m : Nat) (hd : 0 < d) (hm : 0 < m) :
    min (((n : ℚ) / (d : ℚ)) * ((k : ℚ) / (m : ℚ))) 1 =
      ((min (k * n) (m * d) : ℕ) : ℚ) / ((m * d : ℕ) : ℚ) := by
  have hd0 : ((d : ℚ)) ≠ 0 := by positivity
  have hm0 : ((m : ℚ)) ≠ 0 := by positivity
  have hmd : (0 : ℚ) ≤ (m : ℚ) * (d : ℚ) := by positivity
  have h1 : ((n : ℚ) / (d : ℚ)) * ((k : ℚ) / (m : ℚ)) =
      ((k : ℚ) * (n : ℚ)) / ((m : ℚ) * (d : ℚ)) := by
    field_simp
    ring
  have h2 : (1 : ℚ) = ((m : ℚ) * (d : ℚ)) / ((m : ℚ) * (d : ℚ)) := by
    field_simp
  rw [h1, h2, min_div_div_right hmd]
  push_cast
  ring_nf

theorem round2_frac (n d : Nat) (hd : 0 < d) :
    round2 ((n : ℚ) / (d : ℚ)) = (((200 * n + d) / (2 * d) : ℕ) : ℚ) / 100 := by
  have hd0 : ((d : ℚ)) ≠ 0 := by positivity
  have h1 : ((n : ℚ) / (d : ℚ)) * 100 + 1/2 =
      (((200 * n + d : ℕ)) : ℚ) / (((2 * d : ℕ)) : ℚ) := by
    push_cast
    field_simp
    ring
  rw [round2, round_eq, h1, Rat.floor_natCast_div_natCast, ← Int.ofNat_ediv, Int.cast_natCast]

theorem classify_conf_eq_confH (title description : String) :
    (classify_category title description).2 = ((confH title description : ℕ) : ℚ) / 100 := by
  simp only [classify_category, confH]
  by_cases hmax : (((scoresList (preprocess_text title)
      (preprocess_text title ++ " " ++ preprocess_text description)).map Prod.snd).foldl
        max 0) = 0
  · rw [if_pos hmax, if_pos hmax]
    norm_num
  · rw [if_neg hmax, if_neg hmax]
    have ht : 0 < ((scoresList (preprocess_text title)
        (preprocess_text title ++ " " ++ preprocess_text description)).map Prod.snd).sum := by
      have h1 := foldl_max_le_sum ((scoresList (preprocess_text title)
        (preprocess_text title ++ " " ++ preprocess_text description)).map Prod.snd)
      omega
    have ht10 : 0 < 10 * ((scoresList (preprocess_text title)
        (preprocess_text title ++ " " ++ preprocess_text description)).map Prod.snd).sum := by
      omega
    have ht100 : 0 < 10 * (10 * ((scoresList (preprocess_text title)
        (preprocess_text title ++ " " ++ preprocess_text description)).map Prod.snd).sum) := by
      omega
    have h10 : 0 < (10 : ℕ) := by omega
    rw [if_pos ht]
    by_cases hb3 : 3 ≤ (pyMaxBySnd (scoresList (preprocess_text title)
        (preprocess_text title ++ " " ++ preprocess_text description))).2
    · rw [if_pos hb3, if_pos hb3]
      by_cases hany : ((keywordsOf (pyMaxBySnd (scoresList (preprocess_text title)
          (preprocess_text title ++ " " ++ preprocess_text description))).1).any
            (fun kw => containsStr (preprocess_text title) kw)) = true
      · rw [if_pos hany, if_pos hany]
        rw [show ((12 : ℚ)/10) = (((12 : ℕ) : ℚ) / ((10 : ℕ) : ℚ)) by norm_num]
        rw [cap_frac_eq _ _ _ _ ht h10]
        rw [show ((11 : ℚ)/10) = (((11 : ℕ) : ℚ) / ((10 : ℕ) : ℚ)) by norm_num]
        rw [cap_frac_eq _ _ _ _ ht10 h10]
        rw [round2_frac _ _ ht100]
      · rw [if_neg hany, if_neg hany]
        rw [show ((12 : ℚ)/10) = (((12 : ℕ) : ℚ) / ((10 : ℕ) : ℚ)) by norm_num]
        rw [cap_frac_eq _ _ _ _ ht h10]
        rw [round2_frac _ _ ht10]
    · rw [if_neg hb3, if_neg hb3]
      by_cases hany : ((keywordsOf (pyMaxBySnd (scoresList (preprocess_text title)
          (preprocess_text title ++ " " ++ preprocess_text description))).1).any
            (fun kw => containsStr (preprocess_text title) kw)) = true
      · rw [if_pos hany, if_pos hany]
        rw [show ((11 : ℚ)/10) = (((11 : ℕ) : ℚ) / ((10 : ℕ) : ℚ)) by norm_num]
        rw [cap_frac_eq _ _ _ _ ht h10]
        rw [round2_frac _ _ ht10]
      · rw [if_neg hany, if_neg hany]
        rw [round2_frac _ _ ht]

theorem scoresList_snd (tT cT : String) :
    (scoresList tT cT).map Prod.snd = specVals tT cT := by
  simp only [scoresList, specVals, List.map_map]
  congr 1
  funext p
  simp [Function.comp, catScore_eq]

theorem keywordsOf_get :
    ∀ j : Fin CATEGORY_KEYWORDS.length,
      keywordsOf ((CATEGORY_KEYWORDS.get j).1) = (CATEGORY_KEYWORDS.get j).2 := by
  decide

theorem matched_max_ne (title description : String)
    (h : ∃ p ∈ CATEGORY_KEYWORDS, ∃ kw ∈ p.2,
        containsStr (preprocess_text title ++ " " ++ preprocess_text description) kw = true) :
    ¬ ((((scoresList (preprocess_text title)
        (preprocess_text title ++ " " ++ preprocess_text description)).map Prod.snd).foldl
          max 0) = 0) := by
  obtain ⟨p, hp, kw, hkw, hhit⟩ := h
  have h1 : 1 ≤ specScore (preprocess_text title)
      (preprocess_text title ++ " " ++ preprocess_text description) p.2 :=
    specScore_pos hkw hhit
  have hmem2 : catScore (preprocess_text title)
      (preprocess_text title ++ " " ++ preprocess_text description) p.2 ∈
        ((scoresList (preprocess_text title)
          (preprocess_text title ++ " " ++ preprocess_text description)).map Prod.snd) :=
    List.mem_map_of_mem _ (List.mem_map_of_mem _ hp)
  have h2 := mem_le_foldl_max hmem2 0
  rw [catScore_eq] at h2
  omega

theorem min_mul_bounds {x c : ℚ} (h0 : 0 ≤ x) (hc : 0 ≤ c) :
    0 ≤ min (x * c) 1 ∧ min (x * c) 1 ≤ 1 :=
  ⟨le_min (mul_nonneg h0 hc) zero_le_one, min_le_right _ _⟩

theorem round2_bounds {q : ℚ} (h0 : 0 ≤ q) (h1 : q ≤ 1) :
    0 ≤ round2 q ∧ round2 q ≤ 1 := by
  have hl : (0 : ℤ) ≤ round (q * 100) := by
    rw [round_eq]
    have hz : (0 : ℤ) = ⌊(1 : ℚ)/2⌋ := by norm_num
    rw [hz]
    exact Int.floor_mono (by linarith)
  have hu : round (q * 100) ≤ 100 := by
    rw [round_eq]
    have h100 : ⌊(201 : ℚ)/2⌋ = 100 := by norm_num
    calc ⌊q * 100 + 1/2⌋ ≤ ⌊(201 : ℚ)/2⌋ := Int.floor_mono (by linarith)
    _ = 100 := h100
  unfold round2
  constructor
  · exact div_nonneg (by exact_mod_cast hl) (by norm_num)
  · rw [div_le_one (by norm_num)]
    exact_mod_cast hu

theorem classify_conf_bounds (title description : String) :
    0 ≤ (classify_category title description).2 ∧ (classify_category title description).2 ≤ 1 := by
  simp only [classify_category]
  by_cases hmax : (((scoresList (preprocess_text title)
      (preprocess_text title ++ " " ++ preprocess_text description)).map Prod.snd).foldl
        max 0) = 0
  · rw [if_pos hmax]
    norm_num
  · rw [if_neg hmax]
    obtain ⟨i, heq, hub, hfirst⟩ := pyMax_first (scoresList (preprocess_text title)
      (preprocess_text title ++ " " ++ preprocess_text description))
      (by simp [scoresList, CATEGORY_KEYWORDS])
    have hbmem : (pyMaxBySnd (scoresList (preprocess_text title)
        (preprocess_text title ++ " " ++ preprocess_text description))).2 ∈
          ((scoresList (preprocess_text title)
            (preprocess_text title ++ " " ++ preprocess_text description)).map Prod.snd) := by
      rw [heq]
      exact List.mem_map_of_mem _ (List.get_mem _ _ _)
    have hble : (pyMaxBySnd (scoresList (preprocess_text title)
        (preprocess_text title ++ " " ++ preprocess_text description))).2 ≤
          ((scoresList (preprocess_text title)
            (preprocess_text title ++ " " ++ preprocess_text description)).map Prod.snd).sum :=
      List.single_le_sum (fun y _ => Nat.zero_le y) _ hbmem
    have ht : 0 < ((scoresList (preprocess_text title)
        (preprocess_text title ++ " " ++ preprocess_text description)).map Prod.snd).sum := by
      have h1 := foldl_max_le_sum ((scoresList (preprocess_text title)
        (preprocess_text title ++ " " ++ preprocess_text description)).map Prod.snd)
      omega
    rw [if_pos ht]
    have h0 : (0 : ℚ) ≤ ((pyMaxBySnd (scoresList (preprocess_text title)
        (preprocess_text title ++ " " ++ preprocess_text description))).2 : ℚ) /
          (((scoresList (preprocess_text title)
            (preprocess_text title ++ " " ++ preprocess_text description)).map Prod.snd).sum : ℚ) :=
      div_nonneg (Nat.cast_nonneg _) (Nat.cast_nonneg _)
    have h1 : ((pyMaxBySnd (scoresList (preprocess_text title)
        (preprocess_text title ++ " " ++ preprocess_text description))).2 : ℚ) /
          (((scoresList (preprocess_text title)
            (preprocess_text title ++ " " ++ preprocess_text description)).map Prod.snd).sum : ℚ) ≤ 1 :=
      div_le_one_of_le (by exact_mod_cast hble) (Nat.cast_nonneg _)
    split_ifs with hb3 hany hany
    · have hin := min_mul_bounds h0 (by norm_num : (0:ℚ) ≤ 12/10)
      have hout := min_mul_bounds hin.1 (by norm_num : (0:ℚ) ≤ 11/10)
      exact round2_bounds hout.1 hout.2
    · have hin := min_mul_bounds h0 (by norm_num : (0:ℚ) ≤ 11/10)
      exact round2_bounds hin.1 hin.2
    · have hout := min_mul_bounds h0 (by norm_num : (0:ℚ) ≤ 12/10)
      exact round2_bounds hout.1 hout.2
    · exact round2_bounds h0 h1

theorem specMax_eq_best (tT cT : String) :
    specMax tT cT = (pyMaxBySnd (scoresList tT cT)).2 := by
  obtain ⟨i, heq, hub, hfirst⟩ :=
    pyMax_first (scoresList tT cT) (by simp [scoresList, CATEGORY_KEYWORDS])
  rw [specMax, ← scoresList_snd]
  apply le_antisymm
  · apply foldl_max_le (Nat.zero_le _)
    intro x hx
    rcases List.mem_map.mp hx with ⟨q, hq, rfl⟩
    rw [heq]
    exact hub q hq
  · rw [heq]
    exact mem_le_foldl_max (List.mem_map_of_mem _ (List.get_mem _ _ _)) 0

theorem specWinner_eq_best (tT cT : String) :
    specWinner tT cT = (pyMaxBySnd (scoresList tT cT)).1 := by
  obtain ⟨i, heq, hub, hfirst⟩ :=
    pyMax_first (scoresList tT cT) (by simp [scoresList, CATEGORY_KEYWORDS])
  have hM := specMax_eq_best tT cT
  have hi2 : i.val < CATEGORY_KEYWORDS.length := by
    have h1 := i.isLt
    have h2 := scoresList_length tT cT
    omega
  have hiL : i.val < (CATEGORY_KEYWORDS.map Prod.fst).length := by
    rw [List.length_map]
    exact hi2
  have hgeti := scoresList_get tT cT i.val i.isLt hi2
  have hgetL : (CATEGORY_KEYWORDS.map Prod.fst).get ⟨i.val, hiL⟩ =
      (CATEGORY_KEYWORDS.get ⟨i.val, hi2⟩).1 := by
    rw [List.get_map]
  have hscore_i : specScore tT cT (keywordsOf ((CATEGORY_KEYWORDS.map Prod.fst).get
      ⟨i.val, hiL⟩)) = specMax tT cT := by
    rw [hgetL, keywordsOf_get ⟨i.val, hi2⟩, hM, heq]
    rw [show ((scoresList tT cT).get i) = (scoresList tT cT).get ⟨i.val, i.isLt⟩ from rfl, hgeti]
    rw [catScore_eq]
  have hPi : (specScore tT cT (keywordsOf ((CATEGORY_KEYWORDS.map Prod.fst).get ⟨i.val, hiL⟩)) ==
      specMax tT cT) = true := by
    simp only [beq_iff_eq]
    exact hscore_i
  have hPj : ∀ j : Fin (CATEGORY_KEYWORDS.map Prod.fst).length, j.val < i.val →
      (specScore tT cT (keywordsOf ((CATEGORY_KEYWORDS.map Prod.fst).get j)) ==
        specMax tT cT) = false := by
    rintro ⟨jv, hjL⟩ hjlt
    have hj2 : jv < CATEGORY_KEYWORDS.length := by
      rw [List.length_map] at hjL
      exact hjL
    have hjs : jv < (scoresList tT cT).length := by
      have h2 := scoresList_length tT cT
      omega
    have hgetLj : (CATEGORY_KEYWORDS.map Prod.fst).get ⟨jv, hjL⟩ =
        (CATEGORY_KEYWORDS.get ⟨jv, hj2⟩).1 := by
      rw [List.get_map]
    have hgetj := scoresList_get tT cT jv hjs hj2
    have hlt := hfirst ⟨jv, hjs⟩ hjlt
    rw [hgetj] at hlt
    rw [show ((scoresList tT cT).get i) = (scoresList tT cT).get ⟨i.val, i.isLt⟩ from rfl,
      hgeti] at hlt
    simp only [beq_eq_false_iff_ne]
    rw [hgetLj, keywordsOf_get ⟨jv, hj2⟩]
    have hlt2 : specScore tT cT (CATEGORY_KEYWORDS.get ⟨jv, hj2⟩).2 <
        specScore tT cT (CATEGORY_KEYWORDS.get ⟨i.val, hi2⟩).2 := by
      simpa only [catScore_eq] using hlt
    have hMi : specMax tT cT = specScore tT cT (CATEGORY_KEYWORDS.get ⟨i.val, hi2⟩).2 := by
      rw [hM, heq]
      rw [show ((scoresList tT cT).get i) = (scoresList tT cT).get ⟨i.val, i.isLt⟩ from rfl, hgeti]
      rw [catScore_eq]
    rw [hMi]
    omega
  rw [specWinner, find?_eq_of_first (fun c => specScore tT cT (keywordsOf c) == specMax tT cT)
    (CATEGORY_KEYWORDS.map Prod.fst) ⟨i.val, hiL⟩ hPi hPj]
  simp only [Option.getD_some]
  rw [hgetL, heq]
  rw [show ((scoresList tT cT).get i) = (scoresList tT cT).get ⟨i.val, i.isLt⟩ from rfl, hgeti]

/-- C2: with at least one keyword hit, the confidence returned by
`classify_category` equals the specification formula (winning score over total,
times 1.2 capped at 1.0 when the winning score is at least 3, times 1.1 capped
at 1.0 on a title hit of the winning category, rounded to 2 decimals), and for
every input the returned confidence lies in `[0, 1]`. -/
theorem classify_category_confidence (title description : String) :
    ((∃ p ∈ CATEGORY_KEYWORDS, ∃ kw ∈ p.2,
        containsStr (preprocess_text title ++ " " ++ preprocess_text description) kw = true) →
      (classify_category title description).2 =
        specConfidence (preprocess_text title)
          (preprocess_text title ++ " " ++ preprocess_text description)) ∧
    0 ≤ (classify_category title description).2 ∧
    (classify_category title description).2 ≤ 1 := by
  refine ⟨?_, (classify_conf_bounds title description).1, (classify_conf_bounds title description).2⟩
  intro h
  have hmax := matched_max_ne title description h
  have ht : 0 < ((scoresList (preprocess_text title)
      (preprocess_text title ++ " " ++ preprocess_text description)).map Prod.snd).sum := by
    have h1 := foldl_max_le_sum ((scoresList (preprocess_text title)
      (preprocess_text title ++ " " ++ preprocess_text description)).map Prod.snd)
    omega
  have hM := specMax_eq_best (preprocess_text title)
    (preprocess_text title ++ " " ++ preprocess_text description)
  have hW := specWinner_eq_best (preprocess_text title)
    (preprocess_text title ++ " " ++ preprocess_text description)
  have hT : specTotal (preprocess_text title)
      (preprocess_text title ++ " " ++ preprocess_text description) =
      ((scoresList (preprocess_text title)
        (preprocess_text title ++ " " ++ preprocess_text description)).map Prod.snd).sum := by
    rw [specTotal, ← scoresList_snd]
  simp only [classify_category, specConfidence]
  rw [if_neg hmax, if_pos ht, hM, hW, hT]
  simp only [List.any_eq_true]

/-- C2 witness: the confidence formula and the lower bound at `("bug", "")`. -/
theorem classify_category_confidence_witness :
    (classify_category "bug" "").2 =
      specConfidence (preprocess_text "bug")
        (preprocess_text "bug" ++ " " ++ preprocess_text "") ∧
    0 ≤ (classify_category "bug" "").2 :=
  ⟨(classify_category_confidence "bug" "").1
      ⟨("bug", keywordsOf "bug"), by decide, "bug", by decide, by decide⟩,
    (classify_category_confidence "bug" "").2.1⟩

theorem containsStr_empty (q : String) (h : q.data ≠ []) : containsStr "" q = false := by
  rw [containsStr, show ("" : String).data = [] from rfl, occursIn]
  cases hd : q.data with
  | nil => exact absurd hd h
  | cons a l => rfl

theorem isPrefixOf_append_space :
    ∀ (q s : List Char), q ≠ [] → q.getLast? ≠ some ' ' →
      q.isPrefixOf (s ++ [' ']) = q.isPrefixOf s
  | [], _, hne, _ => absurd rfl hne
  | [a], s, _, hlast => by
      have ha : (a == ' ') = false := by
        refine beq_eq_false_iff_ne.mpr ?_
        intro h'
        exact hlast (by rw [h']; rfl)
      cases s with
      | nil => simp [List.isPrefixOf, ha]
      | cons b s' => simp [List.isPrefixOf]
  | a :: b :: q', s, _, hlast => by
      have hlast2 : (b :: q').getLast? ≠ some ' ' := by
        rwa [List.getLast?_cons_cons] at hlast
      cases s with
      | nil => simp [List.isPrefixOf]
      | cons c s' =>
          simp only [List.cons_append, List.isPrefixOf]
          exact congrArg (fun z => a == c && z)
            (isPrefixOf_append_space (b :: q') s' (by simp) hlast2)

theorem occursIn_append_space :
    ∀ (s q : List Char), q ≠ [] → q.getLast? ≠ some ' ' →
      occursIn q (s ++ [' ']) = occursIn q s
  | [], q, hne, hlast => by
      rw [List.nil_append, occursIn, occursIn]
      have h1 : q.isPrefixOf [' '] = q.isPrefixOf [] := by
        simpa using isPrefixOf_append_space q [] hne hlast
      rw [h1]
      cases q with
      | nil => exact absurd rfl hne
      | cons a q' => rfl
  | c :: s, q, hne, hlast => by
      rw [List.cons_append, occursIn, occursIn]
      have h1 : q.isPrefixOf (c :: (s ++ [' '])) = q.isPrefixOf (c :: s) := by
        simpa [List.cons_append] using isPrefixOf_append_space q (c :: s) hne hlast
      rw [h1, occursIn_append_space s q hne hlast]

theorem occursIn_cons_space (q k : List Char) (hne : q ≠ []) (hhead : q.head? ≠ some ' ') :
    occursIn q (' ' :: k) = occursIn q k := by
  rw [occursIn]
  have h1 : q.isPrefixOf (' ' :: k) = false := by
    cases q with
    | nil => exact absurd rfl hne
    | cons a q' =>
        have ha : (a == ' ') = false := by
          refine beq_eq_false_iff_ne.mpr ?_
          intro h'
          exact hhead (by rw [h']; rfl)
        simp [List.isPrefixOf, ha]
  rw [h1]
  simp

theorem containsStr_title_pad (k q : String)
    (hq : q.data ≠ [] ∧ q.data.head? ≠ some ' ' ∧ q.data.getLast? ≠ some ' ') :
    containsStr (k ++ " " ++ "") q = containsStr k q ∧
      containsStr ("" ++ " " ++ k) q = containsStr k q := by
  obtain ⟨h1, h2, h3⟩ := hq
  constructor
  · rw [containsStr, containsStr,
      show (k ++ " " ++ "").data = k.data ++ [' '] by simp [String.data_append]]
    exact occursIn_append_space k.data q.data h1 h3
  · rw [containsStr, containsStr,
      show ("" ++ " " ++ k).data = ' ' :: k.data by simp [String.data_append]]
    exact occursIn_cons_space q.data k.data h1 h2

set_option maxHeartbeats 1600000 in
theorem keywords_good :
    ∀ p ∈ CATEGORY_KEYWORDS, ∀ q ∈ p.2,
      q.data ≠ [] ∧ q.data.head? ≠ some ' ' ∧ q.data.getLast? ≠ some ' ' := by
  decide

theorem keywordsOf_entry : ∀ p ∈ CATEGORY_KEYWORDS, keywordsOf p.1 = p.2 := by
  decide

theorem keywordScore_double (k q : String)
    (hq : q.data ≠ [] ∧ q.data.head? ≠ some ' ' ∧ q.data.getLast? ≠ some ' ') :
    keywordScore k (k ++ " " ++ "") q = 2 * keywordScore "" ("" ++ " " ++ k) q := by
  obtain ⟨hA, hB⟩ := containsStr_title_pad k q hq
  rw [keywordScore, keywordScore, hA, hB, containsStr_empty q hq.1]
  by_cases hc : containsStr k q = true
  · rw [if_pos hc, if_pos hc, if_pos hc, if_neg (by simp)]
  · rw [if_neg hc, if_neg hc]

theorem specScore_double (k : String) :
    ∀ (kws : List String),
      (∀ q ∈ kws, q.data ≠ [] ∧ q.data.head? ≠ some ' ' ∧ q.data.getLast? ≠ some ' ') →
      specScore k (k ++ " " ++ "") kws = 2 * specScore "" ("" ++ " " ++ k) kws
  | [], _ => rfl
  | q :: qs, h => by
      rw [specScore, List.map_cons, List.sum_cons, specScore, List.map_cons, List.sum_cons]
      rw [keywordScore_double k q (h q (List.mem_cons_self _ _))]
      rw [show (List.map (keywordScore k (k ++ " " ++ "")) qs).sum =
        specScore k (k ++ " " ++ "") qs from rfl]
      rw [show (List.map (keywordScore "" ("" ++ " " ++ k)) qs).sum =
        specScore "" ("" ++ " " ++ k) qs from rfl]
      rw [specScore_double k qs (fun r hr => h r (List.mem_cons_of_mem _ hr))]
      omega

theorem specVals_double (k : String) :
    specVals k (k ++ " " ++ "") = (specVals "" ("" ++ " " ++ k)).map (fun v => 2 * v) := by
  rw [specVals, specVals, List.map_map]
  apply List.map_congr_left
  intro p hp
  simp only [Function.comp]
  exact specScore_double k p.2 (keywords_good p hp)

theorem foldl_max_double :
    ∀ (l : List Nat) (a : Nat), (l.map (fun v => 2 * v)).foldl max (2 * a) = 2 * l.foldl max a
  | [], _ => rfl
  | x :: l, a => by
      rw [List.map_cons, List.foldl_cons, List.foldl_cons,
        show max (2 * a) (2 * x) = 2 * max a x by omega]
      exact foldl_max_double l (max a x)

theorem sum_map_double : ∀ (l : List Nat), (l.map (fun v => 2 * v)).sum = 2 * l.sum
  | [] => rfl
  | x :: l => by
      rw [List.map_cons, List.sum_cons, List.sum_cons, sum_map_double l]
      omega

theorem specMax_double (k : String) :
    specMax k (k ++ " " ++ "") = 2 * specMax "" ("" ++ " " ++ k) := by
  rw [specMax, specMax, specVals_double k]
  simpa using foldl_max_double (specVals "" ("" ++ " " ++ k)) 0

theorem specTotal_double (k : String) :
    specTotal k (k ++ " " ++ "") = 2 * specTotal "" ("" ++ " " ++ k) := by
  rw [specTotal, specTotal, specVals_double k, sum_map_double]

theorem find?_congr {α : Type} (p q : α → Bool) :
    ∀ (l : List α), (∀ x ∈ l, p x = q x) → l.find? p = l.find? q
  | [], _ => rfl
  | x :: l, h => by
      have hx := h x (List.mem_cons_self _ _)
      cases hqx : q x with
      | true =>
          rw [List.find?_cons_of_pos _ (by rw [hx, hqx]), List.find?_cons_of_pos _ hqx]
      | false =>
          rw [List.find?_cons_of_neg _ (by simp [hx, hqx]),
            List.find?_cons_of_neg _ (by simp [hqx])]
          exact find?_congr p q l (fun y hy => h y (List.mem_cons_of_mem _ hy))

theorem beq_double (a b : Nat) : ((2 * a == 2 * b) = (a == b)) := by
  by_cases h : a = b
  · simp [h]
  · have h2 : ¬ (2 * a = 2 * b) := by omega
    simp [h, h2]

theorem specWinner_double (k : String) :
    specWinner k (k ++ " " ++ "") = specWinner "" ("" ++ " " ++ k) := by
  rw [specWinner, specWinner]
  refine congrArg (fun o => Option.getD o "task") ?_
  apply find?_congr
  intro c hc
  rcases List.mem_map.mp hc with ⟨p, hp, rfl⟩
  rw [keywordsOf_entry p hp, specScore_double k p.2 (keywords_good p hp), specMax_double k]
  exact beq_double _ _

theorem best_entry (tT cT : String) :
    ∃ p ∈ CATEGORY_KEYWORDS, pyMaxBySnd (scoresList tT cT) = (p.1, catScore tT cT p.2) := by
  obtain ⟨i, heq, _, _⟩ := pyMax_first (scoresList tT cT)
    (by simp [scoresList, CATEGORY_KEYWORDS])
  have hi2 : i.val < CATEGORY_KEYWORDS.length := by
    have h1 := i.isLt
    have h2 := scoresList_length tT cT
    omega
  refine ⟨CATEGORY_KEYWORDS.get ⟨i.val, hi2⟩, List.get_mem _ _ _, ?_⟩
  rw [heq, show (scoresList tT cT).get i = (scoresList tT cT).get ⟨i.val, i.isLt⟩ from rfl,
    scoresList_get tT cT i.val i.isLt hi2]

theorem best_le_sum (tT cT : String) :
    (pyMaxBySnd (scoresList tT cT)).2 ≤ ((scoresList tT cT).map Prod.snd).sum := by
  obtain ⟨i, heq, hub, _⟩ := pyMax_first (scoresList tT cT)
    (by simp [scoresList, CATEGORY_KEYWORDS])
  have hmem : (pyMaxBySnd (scoresList tT cT)).2 ∈ (scoresList tT cT).map Prod.snd := by
    rw [heq]
    exact List.mem_map_of_mem _ (List.get_mem _ _ _)
  exact List.single_le_sum (fun y _ => Nat.zero_le y) _ hmem

theorem winner_hit (tT cT : String)
    (hmax : ¬ (((scoresList tT cT).map Prod.snd).foldl max 0 = 0)) :
    ∃ p ∈ CATEGORY_KEYWORDS, pyMaxBySnd (scoresList tT cT) = (p.1, catScore tT cT p.2) ∧
      ∃ q ∈ p.2, containsStr cT q = true := by
  obtain ⟨p, hp, hbest⟩ := best_entry tT cT
  refine ⟨p, hp, hbest, ?_⟩
  have hbpos : 0 < catScore tT cT p.2 := by
    have h1 : (pyMaxBySnd (scoresList tT cT)).2 = catScore tT cT p.2 := by rw [hbest]
    have h2 := specMax_eq_best tT cT
    have h3 : specMax tT cT ≠ 0 := by
      intro h0
      apply hmax
      rw [specMax, ← scoresList_snd] at h0
      exact h0
    omega
  rw [catScore_eq, specScore] at hbpos
  by_contra hno
  push_neg at hno
  have hz : ∀ x ∈ (p.2.map (keywordScore tT cT)), x = 0 := by
    intro x hx
    rcases List.mem_map.mp hx with ⟨q, hq, rfl⟩
    rw [keywordScore, if_neg (by simp [hno q hq])]
  rw [List.sum_eq_zero hz] at hbpos
  omega

theorem round2_mono {x y : ℚ} (h : x ≤ y) : round2 x ≤ round2 y := by
  rw [round2, round2]
  have h1 : round (x * 100) ≤ round (y * 100) := by
    rw [round_eq, round_eq]
    exact Int.floor_mono (by linarith)
  have h2 : ((round (x * 100) : ℤ) : ℚ) ≤ ((round (y * 100) : ℤ) : ℚ) := by exact_mod_cast h1
  linarith

theorem le_min_boost {x c : ℚ} (h0 : 0 ≤ x) (h1 : x ≤ 1) (hc : 1 ≤ c) :
    x ≤ min (x * c) 1 :=
  le_min (le_mul_of_one_le_right h0 hc) h1

theorem classify_title_ge (t : String) :
    (classify_category "" t).2 ≤ (classify_category t "").2 := by
  have hpe : preprocess_text "" = "" := rfl
  simp only [classify_category, hpe]
  have hmaxAB := specMax_double (preprocess_text t)
  by_cases hmax : (((scoresList "" ("" ++ " " ++ preprocess_text t)).map Prod.snd).foldl
      max 0) = 0
  · have hmaxB2 : specMax "" ("" ++ " " ++ preprocess_text t) = 0 := by
      rw [specMax, ← scoresList_snd]
      exact hmax
    have hmaxA : (((scoresList (preprocess_text t)
        (preprocess_text t ++ " " ++ "")).map Prod.snd).foldl max 0) = 0 := by
      have hA0 : specMax (preprocess_text t) (preprocess_text t ++ " " ++ "") = 0 := by
        rw [hmaxAB, hmaxB2]
      rw [specMax, ← scoresList_snd] at hA0
      exact hA0
    rw [if_pos hmax, if_pos hmaxA]
  · have hmaxA : ¬ ((((scoresList (preprocess_text t)
        (preprocess_text t ++ " " ++ "")).map Prod.snd).foldl max 0) = 0) := by
      intro h0
      apply hmax
      have hA0 : specMax (preprocess_text t) (preprocess_text t ++ " " ++ "") = 0 := by
        rw [specMax, ← scoresList_snd]
        exact h0
      rw [hmaxAB] at hA0
      have hB0 : specMax "" ("" ++ " " ++ preprocess_text t) = 0 := by omega
      rw [specMax, ← scoresList_snd] at hB0
      exact hB0
    rw [if_neg hmax, if_neg hmaxA]
    apply round2_mono
    have hb : (pyMaxBySnd (scoresList (preprocess_text t)
        (preprocess_text t ++ " " ++ ""))).2 =
        2 * (pyMaxBySnd (scoresList "" ("" ++ " " ++ preprocess_text t))).2 := by
      rw [← specMax_eq_best, ← specMax_eq_best, hmaxAB]
    have hT : ((scoresList (preprocess_text t)
        (preprocess_text t ++ " " ++ "")).map Prod.snd).sum =
        2 * ((scoresList "" ("" ++ " " ++ preprocess_text t)).map Prod.snd).sum := by
      rw [scoresList_snd, scoresList_snd]
      exact specTotal_double (preprocess_text t)
    have hTB : 0 < ((scoresList "" ("" ++ " " ++ preprocess_text t)).map Prod.snd).sum := by
      have h1 := foldl_max_le_sum ((scoresList ""
        ("" ++ " " ++ preprocess_text t)).map Prod.snd)
      omega
    have hTA : 0 < ((scoresList (preprocess_text t)
        (preprocess_text t ++ " " ++ "")).map Prod.snd).sum := by
      rw [hT]
      omega
    rw [if_pos hTA, if_pos hTB]
    have hbase : (((pyMaxBySnd (scoresList (preprocess_text t)
        (preprocess_text t ++ " " ++ ""))).2 : ℚ)) /
        ((((scoresList (preprocess_text t)
          (preprocess_text t ++ " " ++ "")).map Prod.snd).sum : ℚ)) =
        (((pyMaxBySnd (scoresList "" ("" ++ " " ++ preprocess_text t))).2 : ℚ)) /
        ((((scoresList "" ("" ++ " " ++ preprocess_text t)).map Prod.snd).sum : ℚ)) := by
      rw [hb, hT]
      push_cast
      rw [mul_div_mul_left _ _ (two_ne_zero)]
    rw [hbase, hb]
    have hw : (pyMaxBySnd (scoresList (preprocess_text t)
        (preprocess_text t ++ " " ++ ""))).1 =
        (pyMaxBySnd (scoresList "" ("" ++ " " ++ preprocess_text t))).1 := by
      rw [← specWinner_eq_best, ← specWinner_eq_best, specWinner_double]
    rw [hw]
    obtain ⟨p, hp, hbest, q, hq, hqc⟩ := winner_hit "" ("" ++ " " ++ preprocess_text t) hmax
    have hgood := keywords_good p hp q hq
    have hqk : containsStr (preprocess_text t) q = true := by
      have hpad := (containsStr_title_pad (preprocess_text t) q hgood).2
      rw [hpad] at hqc
      exact hqc
    have hkwOf : keywordsOf (pyMaxBySnd (scoresList ""
        ("" ++ " " ++ preprocess_text t))).1 = p.2 := by
      rw [hbest]
      exact keywordsOf_entry p hp
    have hanyA : ((keywordsOf (pyMaxBySnd (scoresList ""
        ("" ++ " " ++ preprocess_text t))).1).any
          (fun kw => containsStr (preprocess_text t) kw)) = true := by
      rw [hkwOf]
      exact List.any_eq_true.mpr ⟨q, hq, hqk⟩
    have hanyB : ((keywordsOf (pyMaxBySnd (scoresList ""
        ("" ++ " " ++ preprocess_text t))).1).any
          (fun kw => containsStr "" kw)) = false := by
      rw [hkwOf]
      apply Bool.eq_false_iff.mpr
      intro htrue
      obtain ⟨r, hr, hrc⟩ := List.any_eq_true.mp htrue
      rw [containsStr_empty r (keywords_good p hp r hr).1] at hrc
      exact Bool.false_ne_true hrc
    rw [if_neg (by intro hcontra; rw [hanyB] at hcontra; exact Bool.false_ne_true hcontra),
      if_pos hanyA]
    have hble := best_le_sum "" ("" ++ " " ++ preprocess_text t)
    have hβ0 : (0 : ℚ) ≤ (((pyMaxBySnd (scoresList ""
        ("" ++ " " ++ preprocess_text t))).2 : ℚ)) /
        ((((scoresList "" ("" ++ " " ++ preprocess_text t)).map Prod.snd).sum : ℚ)) :=
      div_nonneg (Nat.cast_nonneg _) (Nat.cast_nonneg _)
    have hβ1 : (((pyMaxBySnd (scoresList ""
        ("" ++ " " ++ preprocess_text t))).2 : ℚ)) /
        ((((scoresList "" ("" ++ " " ++ preprocess_text t)).map Prod.snd).sum : ℚ)) ≤ 1 :=
      div_le_one_of_le (by exact_mod_cast hble) (Nat.cast_nonneg _)
    by_cases h3 : 3 ≤ (pyMaxBySnd (scoresList "" ("" ++ " " ++ preprocess_text t))).2
    · have h6 : 3 ≤ 2 * (pyMaxBySnd (scoresList "" ("" ++ " " ++ preprocess_text t))).2 := by
        omega
      rw [if_pos h3, if_pos h6]
      exact le_min_boost (le_min (mul_nonneg hβ0 (by norm_num)) zero_le_one)
        (min_le_right _ _) (by norm_num)
    · by_cases h6 : 3 ≤ 2 * (pyMaxBySnd (scoresList "" ("" ++ " " ++ preprocess_text t))).2
      · rw [if_neg h3, if_pos h6]
        refine le_trans (le_min_boost hβ0 hβ1 (by norm_num : (1:ℚ) ≤ 12/10)) ?_
        exact le_min_boost (le_min (mul_nonneg hβ0 (by norm_num)) zero_le_one)
          (min_le_right _ _) (by norm_num)
      · rw [if_neg h3, if_neg h6]
        exact le_min_boost hβ0 hβ1 (by norm_num)

/-- C7: for every keyword of every category, classifying it as the title gives
at least the confidence of classifying it as the description. -/
theorem classify_category_title_weighting (c : String) (kws : List String) (kw : String)
    (h1 : (c, kws) ∈ CATEGORY_KEYWORDS) (h2 : kw ∈ kws) :
    (classify_category "" kw).2 ≤ (classify_category kw "").2 :=
  classify_title_ge kw

/-- C7 witness: the title-weighting inequality at the keyword `crash` of
category `bug`. -/
theorem classify_category_title_weighting_witness :
    ("bug", keywordsOf "bug") ∈ CATEGORY_KEYWORDS ∧ "crash" ∈ keywordsOf "bug" ∧
      (classify_category "" "crash").2 ≤ (classify_category "crash" "").2 :=
  ⟨by decide, by decide,
    classify_category_title_weighting "bug" (keywordsOf "bug") "crash" (by decide) (by decide)⟩

theorem toNat_ofNat_of_valid {n : Nat} (h : n < 55296) : (Char.ofNat n).toNat = n := by
  rw [Char.ofNat, dif_pos (Or.inl h : n.isValidChar)]
  rfl

theorem lowerChar_idem (c : Char) : lowerChar (lowerChar c) = lowerChar c := by
  by_cases h : 65 ≤ c.toNat ∧ c.toNat ≤ 90
  · have h1 : lowerChar c = Char.ofNat (c.toNat + 32) := by rw [lowerChar, if_pos h]
    have ht : (Char.ofNat (c.toNat + 32)).toNat = c.toNat + 32 :=
      toNat_ofNat_of_valid (by omega)
    rw [h1, lowerChar]
    rw [if_neg (by rw [ht]; omega)]
  · have h1 : lowerChar c = c := by rw [lowerChar, if_neg h]
    rw [h1, h1]

theorem map_id_of_fixed {f : Char → Char} :
    ∀ {l : List Char}, (∀ c ∈ l, f c = c) → l.map f = l
  | [], _ => rfl
  | c :: cs, h => by
      rw [List.map_cons, h c (List.mem_cons_self c cs),
        map_id_of_fixed (fun d hd => h d (List.mem_cons_of_mem c hd))]

theorem splitWsAux_tokens {Q : Char → Prop} :
    ∀ (m acc : List Char), (∀ c ∈ m, isSpaceChar c = true ∨ Q c) →
      (∀ c ∈ acc, isSpaceChar c = false ∧ Q c) →
      ∀ t ∈ splitWsAux m acc, t ≠ [] ∧ ∀ c ∈ t, isSpaceChar c = false ∧ Q c := by
  intro m
  induction m with
  | nil =>
    intro acc hm hacc t ht
    simp only [splitWsAux] at ht
    by_cases he : acc.isEmpty
    · rw [if_pos he] at ht
      cases ht
    · rw [if_neg he] at ht
      rcases List.mem_singleton.mp ht with rfl
      refine ⟨?_, ?_⟩
      · simp only [ne_eq, List.reverse_eq_nil_iff]
        intro hnil
        rw [hnil] at he
        exact he rfl
      · intro c hc
        exact hacc c (List.mem_reverse.mp hc)
  | cons x xs ih =>
    intro acc hm hacc t ht
    simp only [splitWsAux] at ht
    by_cases hs : isSpaceChar x = true
    · rw [if_pos hs] at ht
      by_cases he : acc.isEmpty
      · rw [if_pos he] at ht
        exact ih [] (fun c hc => hm c (List.mem_cons_of_mem _ hc)) (by simp) t ht
      · rw [if_neg he] at ht
        rcases List.mem_cons.mp ht with rfl | ht
        · refine ⟨?_, ?_⟩
          · simp only [ne_eq, List.reverse_eq_nil_iff]
            intro hnil
            rw [hnil] at he
            exact he rfl
          · intro c hc
            exact hacc c (List.mem_reverse.mp hc)
        · exact ih [] (fun c hc => hm c (List.mem_cons_of_mem _ hc)) (by simp) t ht
    · rw [if_neg hs] at ht
      have hx : isSpaceChar x = false ∧ Q x := by
        rcases hm x (List.mem_cons_self _ _) with hsp | hq
        · exact absurd hsp hs
        · exact ⟨Bool.eq_false_iff.mpr hs, hq⟩
      refine ih (x :: acc) (fun c hc => hm c (List.mem_cons_of_mem _ hc)) ?_ t ht
      intro c hc
      rcases List.mem_cons.mp hc with rfl | hc
      · exact hx
      · exact hacc c hc

theorem splitWsAux_append_nonspace :
    ∀ (t rest acc : List Char), (∀ c ∈ t, isSpaceChar c = false) →
      splitWsAux (t ++ rest) acc = splitWsAux rest (t.reverse ++ acc)
  | [], rest, acc, _ => by simp
  | c :: t', rest, acc, h => by
      have hc : isSpaceChar c = false := h c (List.mem_cons_self _ _)
      rw [List.cons_append, splitWsAux, if_neg (by simp [hc])]
      rw [splitWsAux_append_nonspace t' rest (c :: acc)
        (fun d hd => h d (List.mem_cons_of_mem _ hd))]
      simp [List.reverse_cons, List.append_assoc]

theorem splitWs_joinSpace :
    ∀ (ts : List (List Char)), (∀ t ∈ ts, t ≠ [] ∧ ∀ c ∈ t, isSpaceChar c = false) →
      splitWs (joinSpace ts) = ts
  | [], _ => rfl
  | [t], h => by
      obtain ⟨hne, hns⟩ := h t (List.mem_singleton.mpr rfl)
      rw [show joinSpace [t] = t from rfl]
      rw [splitWs, show t = t ++ ([] : List Char) by simp,
        splitWsAux_append_nonspace t [] [] hns]
      simp only [splitWsAux, List.append_nil]
      rw [if_neg (by simpa using hne)]
      simp
  | t :: t' :: ts', h => by
      obtain ⟨hne, hns⟩ := h t (List.mem_cons_self _ _)
      rw [show joinSpace (t :: t' :: ts') = t ++ ' ' :: joinSpace (t' :: ts') from rfl]
      rw [splitWs, splitWsAux_append_nonspace t (' ' :: joinSpace (t' :: ts')) [] hns]
      simp only [splitWsAux, List.append_nil]
      rw [if_pos (by decide : isSpaceChar ' ' = true)]
      rw [if_neg (by simpa using hne)]
      rw [show splitWsAux (joinSpace (t' :: ts')) [] = splitWs (joinSpace (t' :: ts')) from rfl]
      rw [splitWs_joinSpace (t' :: ts') (fun u hu => h u (List.mem_cons_of_mem _ hu))]
      simp

theorem mem_joinSpace :
    ∀ (ts : List (List Char)) (c : Char), c ∈ joinSpace ts → c = ' ' ∨ ∃ t ∈ ts, c ∈ t
  | [], c, h => by cases h
  | [t], c, h => Or.inr ⟨t, List.mem_singleton.mpr rfl, h⟩
  | t :: t' :: ts', c, h => by
      rw [show joinSpace (t :: t' :: ts') = t ++ ' ' :: joinSpace (t' :: ts') from rfl] at h
      rcases List.mem_append.mp h with h | h
      · exact Or.inr ⟨t, List.mem_cons_self _ _, h⟩
      · rcases List.mem_cons.mp h with rfl | h
        · exact Or.inl rfl
        · rcases mem_joinSpace (t' :: ts') c h with h | ⟨u, hu, hc⟩
          · exact Or.inl h
          · exact Or.inr ⟨u, List.mem_cons_of_mem _ hu, hc⟩

/-- C9: `preprocess_text` is idempotent — preprocessing an already preprocessed
string returns it unchanged. -/
theorem preprocess_text_idempotent (s : String) :
    preprocess_text (preprocess_text s) = preprocess_text s := by
  have hQm : ∀ c ∈ ((s.data.map lowerChar).map keepChar),
      isSpaceChar c = true ∨ (lowerChar c = c ∧ keepChar c = c) := by
    intro c hc
    rcases List.mem_map.mp hc with ⟨b, hb, rfl⟩
    rcases List.mem_map.mp hb with ⟨a, ha, rfl⟩
    by_cases hk : (isWordChar (lowerChar a) || isSpaceChar (lowerChar a) ||
        (lowerChar a == '?')) = true
    · have hkeep : keepChar (lowerChar a) = lowerChar a := by rw [keepChar, if_pos hk]
      by_cases hsp : isSpaceChar (lowerChar a) = true
      · left
        rw [hkeep]
        exact hsp
      · right
        rw [hkeep]
        exact ⟨lowerChar_idem a, by rw [keepChar, if_pos hk]⟩
    · have hkeep : keepChar (lowerChar a) = ' ' := by rw [keepChar, if_neg hk]
      left
      rw [hkeep]
      rfl
  have htok := splitWsAux_tokens ((s.data.map lowerChar).map keepChar) [] hQm (by simp)
  have hdata : (preprocess_text s).data =
      joinSpace (splitWs ((s.data.map lowerChar).map keepChar)) := rfl
  have hlower : (joinSpace (splitWs ((s.data.map lowerChar).map keepChar))).map lowerChar =
      joinSpace (splitWs ((s.data.map lowerChar).map keepChar)) := by
    apply map_id_of_fixed
    intro c hc
    rcases mem_joinSpace _ c hc with rfl | ⟨t, ht, hct⟩
    · rfl
    · exact ((htok t ht).2 c hct).2.1
  have hkeepu : (joinSpace (splitWs ((s.data.map lowerChar).map keepChar))).map keepChar =
      joinSpace (splitWs ((s.data.map lowerChar).map keepChar)) := by
    apply map_id_of_fixed
    intro c hc
    rcases mem_joinSpace _ c hc with rfl | ⟨t, ht, hct⟩
    · rfl
    · exact ((htok t ht).2 c hct).2.2
  have hsplit : splitWs (joinSpace (splitWs ((s.data.map lowerChar).map keepChar))) =
      splitWs ((s.data.map lowerChar).map keepChar) := by
    apply splitWs_joinSpace
    intro t ht
    exact ⟨(htok t ht).1, fun c hc => ((htok t ht).2 c hc).1⟩
  show (⟨joinSpace (splitWs (((preprocess_text s).data.map lowerChar).map keepChar))⟩ : String) =
    preprocess_text s
  rw [hdata, hlower, hkeepu, hsplit]
  rfl

theorem foldl_if_filter {α β : Type} (p : α → Bool) (f : β → α → β) :
    ∀ (l : List α) (acc : β),
      l.foldl (fun b a => if p a then f b a else b) acc = (l.filter p).foldl f acc
  | [], _ => rfl
  | a :: l, acc => by
      by_cases h : p a = true
      · rw [List.foldl_cons, if_pos h, List.filter_cons_of_pos h, List.foldl_cons]
        exact foldl_if_filter p f l (f acc a)
      · rw [List.foldl_cons, if_neg h, List.filter_cons_of_neg (by simpa using h)]
        exact foldl_if_filter p f l acc

theorem buildFreq_eq_filter (ws : List String) :
    buildFreq ws = (ws.filter (fun w => 3 < w.length && !(stop_words.contains w))).foldl
      (fun acc w => bumpFreq w acc) [] := by
  rw [buildFreq, foldl_if_filter]

theorem bumpFreq_fst (w : String) :
    ∀ (a : List (String × Nat)),
      (bumpFreq w a).map Prod.fst =
        if (a.map Prod.fst).contains w then a.map Prod.fst else a.map Prod.fst ++ [w]
  | [] => rfl
  | (v, c) :: rest => by
      by_cases hv : v = w
      · subst hv
        rw [bumpFreq, if_pos (by simp)]
        rw [List.map_cons, List.map_cons,
          if_pos (by simp [List.contains_cons])]
      · have hwv : (w == v) = false := beq_eq_false_iff_ne.mpr (Ne.symm hv)
        have hbump : bumpFreq w ((v, c) :: rest) = (v, c) :: bumpFreq w rest := by
          rw [bumpFreq, if_neg (by simp [hv])]
        have hcc : (((v, c) :: rest).map Prod.fst).contains w =
            (rest.map Prod.fst).contains w := by
          simp [List.contains_cons, hwv]
        rw [hbump, List.map_cons, bumpFreq_fst w rest, hcc]
        by_cases hc : (rest.map Prod.fst).contains w = true
        · rw [if_pos hc, if_pos hc, List.map_cons]
        · rw [if_neg hc, if_neg hc, List.map_cons]
          simp

theorem firstSeenAux_congr :
    ∀ (l s1 s2 : List String), (∀ x, s1.contains x = s2.contains x) →
      firstSeenAux l s1 = firstSeenAux l s2
  | [], _, _, _ => rfl
  | w :: ws, s1, s2, h => by
      rw [firstSeenAux, firstSeenAux, h w]
      by_cases hc : s2.contains w = true
      · rw [if_pos hc, if_pos hc]
        exact firstSeenAux_congr ws s1 s2 h
      · rw [if_neg hc, if_neg hc]
        rw [firstSeenAux_congr ws (w :: s1) (w :: s2)
          (fun x => by rw [List.contains_cons, List.contains_cons, h x])]

theorem contains_append_singleton (s : List String) (w x : String) :
    (s ++ [w]).contains x = (w :: s).contains x := by
  simp [List.contains_cons, Bool.or_comm]

theorem foldl_bump_fst :
    ∀ (l : List String) (acc : List (String × Nat)),
      ((l.foldl (fun a w => bumpFreq w a) acc).map Prod.fst) =
        acc.map Prod.fst ++ firstSeenAux l (acc.map Prod.fst)
  | [], acc => by simp [firstSeenAux]
  | w :: ws, acc => by
      rw [List.foldl_cons, foldl_bump_fst ws (bumpFreq w acc), bumpFreq_fst, firstSeenAux]
      by_cases hc : ((acc.map Prod.fst).contains w) = true
      · rw [if_pos hc, if_pos hc]
      · rw [if_neg hc, if_neg hc]
        rw [firstSeenAux_congr ws ((acc.map Prod.fst) ++ [w]) (w :: acc.map Prod.fst)
          (fun x => contains_append_singleton _ _ _)]
        simp

theorem firstSeenAux_nodup :
    ∀ (l seen : List String),
      (firstSeenAux l seen).Nodup ∧ ∀ x ∈ firstSeenAux l seen, seen.contains x = false
  | [], seen => ⟨List.nodup_nil, by simp [firstSeenAux]⟩
  | w :: ws, seen => by
      rw [firstSeenAux]
      by_cases hc : seen.contains w = true
      · rw [if_pos hc]
        exact firstSeenAux_nodup ws seen
      · rw [if_neg hc]
        obtain ⟨hnd, hmem⟩ := firstSeenAux_nodup ws (w :: seen)
        refine ⟨List.nodup_cons.mpr ⟨?_, hnd⟩, ?_⟩
        · intro hw
          have h1 := hmem w hw
          simp [List.contains_cons] at h1
        · intro x hx
          rcases List.mem_cons.mp hx with rfl | hx
          · exact Bool.eq_false_iff.mpr hc
          · have h1 := hmem x hx
            simp only [List.contains_cons, Bool.or_eq_false_iff] at h1
            exact h1.2

theorem valueOf_cons (x : String) (c : Nat) (rest : List (String × Nat)) (v : String) :
    valueOf ((x, c) :: rest) v = if x == v then c else valueOf rest v := by
  by_cases h : (x == v) = true
  · rw [valueOf, List.find?_cons_of_pos _ (by simpa using h), if_pos h]
    rfl
  · rw [valueOf, List.find?_cons_of_neg _ (by simpa using h), if_neg h]
    rfl

theorem valueOf_bump (w : String) :
    ∀ (a : List (String × Nat)) (v : String),
      valueOf (bumpFreq w a) v = if w == v then valueOf a v + 1 else valueOf a v
  | [], v => by
      by_cases h : (w == v) = true
      · simp [bumpFreq, valueOf_cons, valueOf, h]
      · simp [bumpFreq, valueOf_cons, valueOf, h]
  | (x, c) :: rest, v => by
      by_cases hxw : (x == w) = true
      · have hxw2 : x = w := by simpa [beq_iff_eq] using hxw
        subst hxw2
        rw [bumpFreq, if_pos (by simp), valueOf_cons, valueOf_cons]
        by_cases hxv : (x == v) = true
        · rw [if_pos hxv, if_pos hxv, if_pos hxv]
        · rw [if_neg hxv, if_neg hxv, if_neg hxv]
      · rw [bumpFreq, if_neg hxw, valueOf_cons, valueOf_cons]
        by_cases hxv : (x == v) = true
        · rw [if_pos hxv, if_pos hxv]
          have hwv : (w == v) = false := by
            refine beq_eq_false_iff_ne.mpr ?_
            intro hwv2
            have hxv2 : x = v := by simpa [beq_iff_eq] using hxv
            exact (by simpa [beq_iff_eq] using hxw : ¬ x = w) (by rw [hxv2, hwv2])
          rw [if_neg (by simp [hwv])]
        · rw [if_neg hxv, if_neg hxv, valueOf_bump w rest v]

theorem valueOf_foldl_bump :
    ∀ (l : List String) (acc : List (String × Nat)) (v : String),
      valueOf (l.foldl (fun a w => bumpFreq w a) acc) v = valueOf acc v + l.count v
  | [], acc, v => by simp
  | w :: ws, acc, v => by
      rw [List.foldl_cons, valueOf_foldl_bump ws (bumpFreq w acc) v, valueOf_bump]
      by_cases h : (w == v) = true
      · have hw2 : w = v := by simpa [beq_iff_eq] using h
        subst hw2
        rw [if_pos h, List.count_cons_self]
        omega
      · have hne : v ≠ w := fun hvw =>
          (by simpa [beq_iff_eq] using h : ¬ w = v) hvw.symm
        rw [if_neg h, List.count_cons_of_ne hne]

theorem mem_assoc_valueOf :
    ∀ (a : List (String × Nat)), (a.map Prod.fst).Nodup → ∀ p ∈ a, valueOf a p.1 = p.2
  | [], _, p, hp => by cases hp
  | (x, c) :: rest, hnd, p, hp => by
      rw [List.map_cons, List.nodup_cons] at hnd
      rcases List.mem_cons.mp hp with rfl | hp
      · rw [valueOf_cons, if_pos (by simp)]
      · have hx : (x == p.1) = false := by
          refine beq_eq_false_iff_ne.mpr ?_
          intro hxp
          exact hnd.1 (by rw [hxp]; exact @List.mem_map_of_mem _ _ rest p Prod.fst hp)
        rw [valueOf_cons, if_neg (by simp [hx])]
        exact mem_assoc_valueOf rest hnd.2 p hp

theorem insertDescBy_perm {α : Type} (f : α → Nat) (x : α) :
    ∀ (l : List α), (insertDescBy f x l).Perm (x :: l)
  | [] => List.Perm.refl _
  | y :: ys => by
      rw [insertDescBy]
      split_ifs with h
      · exact List.Perm.refl _
      · exact ((insertDescBy_perm f x ys).cons y).trans (List.Perm.swap x y ys)

theorem sortDescBy_perm {α : Type} (f : α → Nat) :
    ∀ (l : List α), (sortDescBy f l).Perm l
  | [] => List.Perm.refl _
  | x :: xs => by
      rw [sortDescBy]
      exact (insertDescBy_perm f x (sortDescBy f xs)).trans ((sortDescBy_perm f xs).cons x)

theorem insertDescBy_pairwise {α : Type} (f g : α → Nat) (x : α) :
    ∀ (s : List α),
      s.Pairwise (fun a b => f b < f a ∨ (f a = f b ∧ g a < g b)) →
      (∀ y ∈ s, g x < g y) →
      (insertDescBy f x s).Pairwise (fun a b => f b < f a ∨ (f a = f b ∧ g a < g b))
  | [], _, _ => by
      rw [insertDescBy]
      exact List.pairwise_singleton _ _
  | y :: ys, hs, hx => by
      rw [List.pairwise_cons] at hs
      obtain ⟨hy, hys⟩ := hs
      rw [insertDescBy]
      split_ifs with hle
      · rw [List.pairwise_cons]
        refine ⟨?_, List.pairwise_cons.mpr ⟨hy, hys⟩⟩
        intro z hz
        rcases List.mem_cons.mp hz with rfl | hz
        · rcases Nat.lt_or_ge (f z) (f x) with hlt | hge
          · exact Or.inl hlt
          · exact Or.inr ⟨Nat.le_antisymm hge hle, hx z (List.mem_cons_self _ _)⟩
        · have hyz := hy z hz
          have hfz : f z ≤ f y := by
            rcases hyz with h1 | ⟨h1, _⟩
            · exact le_of_lt h1
            · exact le_of_eq h1.symm
          rcases Nat.lt_or_ge (f z) (f x) with hlt | hge
          · exact Or.inl hlt
          · exact Or.inr ⟨Nat.le_antisymm hge (le_trans hfz hle),
              hx z (List.mem_cons_of_mem _ hz)⟩
      · rw [List.pairwise_cons]
        constructor
        · intro z hz
          have hz2 := (insertDescBy_perm f x ys).mem_iff.mp hz
          rcases List.mem_cons.mp hz2 with rfl | hz2
          · exact Or.inl (Nat.lt_of_not_le hle)
          · exact hy z hz2
        · exact insertDescBy_pairwise f g x ys hys
            (fun z hz2 => hx z (List.mem_cons_of_mem _ hz2))

theorem sortDescBy_pairwise {α : Type} (f g : α → Nat) :
    ∀ (l : List α), l.Pairwise (fun a b => g a < g b) →
      (sortDescBy f l).Pairwise (fun a b => f b < f a ∨ (f a = f b ∧ g a < g b))
  | [], _ => List.Pairwise.nil
  | x :: xs, hl => by
      rw [List.pairwise_cons] at hl
      rw [sortDescBy]
      exact insertDescBy_pairwise f g x (sortDescBy f xs)
        (sortDescBy_pairwise f g xs hl.2)
        (fun y hy => hl.1 y ((sortDescBy_perm f xs).mem_iff.mp hy))

theorem insertDescBy_map {α β : Type} (f : α → Nat) (f2 : β → Nat) (g : β → α)
    (hfg : ∀ b, f (g b) = f2 b) (x : β) :
    ∀ (l : List β), (insertDescBy f2 x l).map g = insertDescBy f (g x) (l.map g)
  | [] => rfl
  | y :: ys => by
      rw [insertDescBy, List.map_cons, insertDescBy]
      by_cases h : f2 y ≤ f2 x
      · rw [if_pos h, if_pos (by rw [hfg, hfg]; exact h)]
        rfl
      · rw [if_neg h, if_neg (by rw [hfg, hfg]; exact h)]
        rw [List.map_cons, insertDescBy_map f f2 g hfg x ys]

theorem sortDescBy_map {α β : Type} (f : α → Nat) (f2 : β → Nat) (g : β → α)
    (hfg : ∀ b, f (g b) = f2 b) :
    ∀ (l : List β), (sortDescBy f2 l).map g = sortDescBy f (l.map g)
  | [] => rfl
  | x :: xs => by
      rw [sortDescBy, List.map_cons, sortDescBy, insertDescBy_map f f2 g hfg,
        sortDescBy_map f f2 g hfg xs]

theorem enumFrom_pairwise {α : Type} :
    ∀ (l : List α) (n : Nat), (List.enumFrom n l).Pairwise (fun a b => a.1 < b.1)
  | [], _ => List.Pairwise.nil
  | x :: xs, n => by
      rw [List.enumFrom, List.pairwise_cons]
      refine ⟨?_, enumFrom_pairwise xs (n + 1)⟩
      rintro ⟨i, a⟩ hp
      have h1 := (List.mem_enumFrom hp).1
      show n < i
      omega

theorem mem_enum_get {α : Type} (l : List α) (p : Nat × α) (hp : p ∈ l.enum) :
    ∃ h : p.1 < l.length, l.get ⟨p.1, h⟩ = p.2 := by
  rcases p with ⟨i, a⟩
  rw [List.enum_eq_enumFrom] at hp
  have h := List.mem_enumFrom hp
  have hlen : i < l.length := by
    have h2 := h.2.1
    omega
  refine ⟨hlen, ?_⟩
  have h3 := h.2.2
  simp only [Nat.sub_zero] at h3
  rw [List.get_eq_getElem]
  exact h3.symm

theorem indexOf_get_of_nodup (l : List String) (hnd : l.Nodup) (i : Fin l.length) :
    l.indexOf (l.get i) = i.val := by
  have hmem : l.get i ∈ l := List.get_mem _ _ _
  have hlt : l.indexOf (l.get i) < l.length := List.indexOf_lt_length.mpr hmem
  have hget : l.get ⟨l.indexOf (l.get i), hlt⟩ = l.get i := List.indexOf_get hlt
  have heq := (hnd.get_inj_iff).mp hget
  exact congrArg Fin.val heq

/-- C5: `extract_keywords` returns the preprocessed tokens longer than 3
characters that are not stop words, ordered by frequency descending with ties
broken by first-encountered order, truncated to the first `top_n`, token text
only. -/
theorem extract_keywords_ranking (text : String) (n : Nat) :
    ∃ s : List (String × Nat),
      s.Perm (buildFreq ((splitWs (preprocess_text text).data).map
        (fun l => (⟨l⟩ : String)))) ∧
      s.Pairwise (fun a b => b.2 < a.2 ∨ (a.2 = b.2 ∧
        ∃ i j : Fin (buildFreq ((splitWs (preprocess_text text).data).map
            (fun l => (⟨l⟩ : String)))).length,
          i.val < j.val ∧
          (buildFreq ((splitWs (preprocess_text text).data).map
            (fun l => (⟨l⟩ : String)))).get i = a ∧
          (buildFreq ((splitWs (preprocess_text text).data).map
            (fun l => (⟨l⟩ : String)))).get j = b)) ∧
      extract_keywords text n = (s.map Prod.fst).take n ∧
      (buildFreq ((splitWs (preprocess_text text).data).map
        (fun l => (⟨l⟩ : String)))).map Prod.fst =
        firstSeen (((splitWs (preprocess_text text).data).map
          (fun l => (⟨l⟩ : String))).filter
            (fun w => 3 < w.length && !(stop_words.contains w))) ∧
      ∀ p ∈ buildFreq ((splitWs (preprocess_text text).data).map
          (fun l => (⟨l⟩ : String))),
        p.2 = ((((splitWs (preprocess_text text).data).map
          (fun l => (⟨l⟩ : String))).filter
            (fun w => 3 < w.length && !(stop_words.contains w))).count p.1) := by
  have hkeys : (buildFreq ((splitWs (preprocess_text text).data).map
      (fun l => (⟨l⟩ : String)))).map Prod.fst =
      firstSeen (((splitWs (preprocess_text text).data).map
        (fun l => (⟨l⟩ : String))).filter
          (fun w => 3 < w.length && !(stop_words.contains w))) := by
    rw [buildFreq_eq_filter]
    simpa [firstSeen] using foldl_bump_fst (((splitWs (preprocess_text text).data).map
      (fun l => (⟨l⟩ : String))).filter
        (fun w => 3 < w.length && !(stop_words.contains w))) []
  have hnodup : ((buildFreq ((splitWs (preprocess_text text).data).map
      (fun l => (⟨l⟩ : String)))).map Prod.fst).Nodup := by
    rw [hkeys]
    exact (firstSeenAux_nodup (((splitWs (preprocess_text text).data).map
      (fun l => (⟨l⟩ : String))).filter
        (fun w => 3 < w.length && !(stop_words.contains w))) []).1
  have hcounts : ∀ p ∈ buildFreq ((splitWs (preprocess_text text).data).map
      (fun l => (⟨l⟩ : String))),
      p.2 = ((((splitWs (preprocess_text text).data).map
        (fun l => (⟨l⟩ : String))).filter
          (fun w => 3 < w.length && !(stop_words.contains w))).count p.1) := by
    intro p hp
    have h1 := mem_assoc_valueOf _ hnodup p hp
    have h2 : valueOf (buildFreq ((splitWs (preprocess_text text).data).map
        (fun l => (⟨l⟩ : String)))) p.1 =
        valueOf [] p.1 + ((((splitWs (preprocess_text text).data).map
          (fun l => (⟨l⟩ : String))).filter
            (fun w => 3 < w.length && !(stop_words.contains w))).count p.1) := by
      rw [buildFreq_eq_filter]
      exact valueOf_foldl_bump _ [] p.1
    have h3 : valueOf ([] : List (String × Nat)) p.1 = 0 := rfl
    omega
  refine ⟨sortDescBy Prod.snd (buildFreq ((splitWs (preprocess_text text).data).map
    (fun l => (⟨l⟩ : String)))), sortDescBy_perm _ _, ?_, ?_, hkeys, hcounts⟩
  · have hmap := sortDescBy_map Prod.snd (fun q : Nat × (String × Nat) => q.2.2) Prod.snd (fun b => rfl)
      (buildFreq ((splitWs (preprocess_text text).data).map
        (fun l => (⟨l⟩ : String)))).enum
    rw [List.enum_map_snd] at hmap
    rw [← hmap, List.pairwise_map]
    have hpairA := sortDescBy_pairwise (fun q : Nat × (String × Nat) => q.2.2) Prod.fst
      (buildFreq ((splitWs (preprocess_text text).data).map
        (fun l => (⟨l⟩ : String)))).enum
      (by rw [List.enum_eq_enumFrom]; exact enumFrom_pairwise _ 0)
    refine hpairA.imp_of_mem ?_
    intro a b ha hb hC
    have ha2 := (sortDescBy_perm (fun q : Nat × (String × Nat) => q.2.2) _).mem_iff.mp ha
    have hb2 := (sortDescBy_perm (fun q : Nat × (String × Nat) => q.2.2) _).mem_iff.mp hb
    rcases hC with h1 | ⟨h1, h2⟩
    · exact Or.inl h1
    · obtain ⟨hia, hga⟩ := mem_enum_get _ a ha2
      obtain ⟨hib, hgb⟩ := mem_enum_get _ b hb2
      exact Or.inr ⟨h1, ⟨a.1, hia⟩, ⟨b.1, hib⟩, h2, hga, hgb⟩
  · simp only [extract_keywords]
    rw [List.map_take]

/-- C6 counterexample: `over` is not in the stop-word set — with a larger
`top_n` it is returned by `extract_keywords`, so it is not "excluded as a stop
word"; at `top_n = 3` it merely falls outside the truncation. -/
theorem extract_keywords_over_not_stop_word :
    ¬ ("over" ∈ stop_words) ∧
      "over" ∈ extract_keywords "the quick brown fox jumps over the lazy dog" 5 :=
  ⟨by decide, by decide⟩

/-- C6 (amended): on `"the quick brown fox jumps over the lazy dog"` with
`top_n = 3`, `extract_keywords` drops the stop word `the` and the length-3
tokens `fox` and `dog`; `over` is kept in the frequency table (it is not a stop
word) but falls outside the top 3; the result is exactly
`["quick", "brown", "jumps"]`, a subset of `{quick, brown, jumps, lazy}`. -/
theorem extract_keywords_stop_word_example :
    extract_keywords "the quick brown fox jumps over the lazy dog" 3 =
      ["quick", "brown", "jumps"] ∧
    "the" ∈ stop_words ∧ ¬ ("over" ∈ stop_words) ∧
    "fox".length ≤ 3 ∧ "dog".length ≤ 3 ∧
    "the" ∉ extract_keywords "the quick brown fox jumps over the lazy dog" 3 ∧
    "over" ∉ extract_keywords "the quick brown fox jumps over the lazy dog" 3 ∧
    (∀ w ∈ extract_keywords "the quick brown fox jumps over the lazy dog" 3,
      w ∈ ["quick", "brown", "jumps", "lazy"]) :=
  ⟨by decide, by decide, by decide, by decide, by decide, by decide, by decide, by decide⟩

end IssueTracker
